import Mathlib

/-!
Verification of the section-classification / chunk-retrieval / evidence-verification
core of the tax-evidence-finder pipeline.

Text is modelled as `List Char`.  Python strings from the source
(`src/stage1_parser.py`, `src/stage2_verbatim.py`, `src/stage2_gemini.py`) are
embedded as `List Char` values; Python regular expressions are embedded by a
small derivative-based regular-expression engine (`RE`) below, transcribing
each pattern of the source verbatim.  `re.search` (match anywhere) becomes
`reSearch`, `re.search` with `re.MULTILINE` on a `^`-anchored pattern becomes
`reSearchLS` (line-start positions only), and a leading `\b` word boundary
becomes `reSearchWB`.
-/

set_option maxRecDepth 20000
set_option maxHeartbeats 1000000

namespace TaxEvidence

/-- Python `\s` for the ASCII texts handled by the pipeline. -/
def isWs (c : Char) : Bool :=
  c = ' ' || c = '\t' || c = '\n' || c = '\r' || c = '\x0b' || c = '\x0c'

/-- Python `\w` (ASCII): letters, digits, underscore. -/
def isWordChar (c : Char) : Bool :=
  c.isAlphanum || c = '_'

/-- Python `str.lower()` on the ASCII texts handled by the pipeline. -/
def toLowerL (l : List Char) : List Char :=
  l.map Char.toLower

/-- Does `n` occur at the start of `l`?  (Python `str.startswith`.) -/
def startsWith : List Char → List Char → Bool
  | [], _ => true
  | _ :: _, [] => false
  | a :: as, b :: bs => a = b && startsWith as bs

/-- Does `n` occur as a contiguous substring of `l`?  (Python `in`.) -/
def containsSub (n : List Char) : List Char → Bool
  | [] => startsWith n []
  | b :: bs => startsWith n (b :: bs) || containsSub n bs

theorem startsWith_iff (n l : List Char) :
    startsWith n l = true ↔ ∃ v, l = n ++ v := by
  induction n generalizing l with
  | nil => simp [startsWith]
  | cons a as ih =>
    cases l with
    | nil =>
      simp [startsWith]
    | cons b bs =>
      simp only [startsWith, Bool.and_eq_true, decide_eq_true_eq, ih, List.cons_append,
        List.cons.injEq]
      constructor
      · rintro ⟨rfl, v, rfl⟩
        exact ⟨v, rfl, rfl⟩
      · rintro ⟨v, rfl, rfl⟩
        exact ⟨rfl, v, rfl⟩

theorem containsSub_iff (n l : List Char) :
    containsSub n l = true ↔ ∃ u v, l = u ++ n ++ v := by
  induction l with
  | nil =>
    simp only [containsSub, startsWith_iff]
    constructor
    · rintro ⟨v, h⟩
      exact ⟨[], v, by simpa using h⟩
    · rintro ⟨u, v, h⟩
      have h' : u = [] ∧ n ++ v = [] := List.append_eq_nil.1 (by simpa using h.symm)
      rcases List.append_eq_nil.1 h'.2 with ⟨rfl, rfl⟩
      exact ⟨[], by simp⟩
  | cons b bs ih =>
    simp only [containsSub, Bool.or_eq_true, startsWith_iff, ih]
    constructor
    · rintro (⟨v, h⟩ | ⟨u, v, h⟩)
      · exact ⟨[], v, by simpa using h⟩
      · exact ⟨b :: u, v, by simp [h]⟩
    · rintro ⟨u, v, h⟩
      cases u with
      | nil => exact Or.inl ⟨v, by simpa using h⟩
      | cons x xs =>
        right
        refine ⟨xs, v, ?_⟩
        have := (List.cons_eq_cons.1 (by simpa using h)).2
        simpa using this

theorem containsSub_refl (n : List Char) : containsSub n n = true := by
  rw [containsSub_iff]
  exact ⟨[], [], by simp⟩

theorem containsSub_trans {a b c : List Char}
    (h1 : containsSub a b = true) (h2 : containsSub b c = true) :
    containsSub a c = true := by
  rw [containsSub_iff] at h1 h2 ⊢
  rcases h1 with ⟨u, v, rfl⟩
  rcases h2 with ⟨u', v', rfl⟩
  exact ⟨u' ++ u, v ++ v', by simp⟩

theorem containsSub_take {n h : List Char} (k : Nat)
    (hc : containsSub n h = true) : containsSub (n.take k) h = true := by
  rw [containsSub_iff] at hc ⊢
  rcases hc with ⟨u, v, rfl⟩
  refine ⟨u, n.drop k ++ v, ?_⟩
  conv_rhs => rw [List.append_assoc u, ← List.append_assoc (List.take k n),
    List.take_append_drop]
  simp

theorem containsSub_append_outer {n h : List Char} (x y : List Char)
    (hc : containsSub n h = true) : containsSub n (x ++ h ++ y) = true := by
  rw [containsSub_iff] at hc ⊢
  rcases hc with ⟨u, v, rfl⟩
  exact ⟨x ++ u, v ++ y, by simp⟩

theorem containsSub_map {n h : List Char} (f : Char → Char)
    (hc : containsSub n h = true) : containsSub (n.map f) (h.map f) = true := by
  rw [containsSub_iff] at hc ⊢
  rcases hc with ⟨u, v, rfl⟩
  exact ⟨u.map f, v.map f, by simp⟩

/-- One step of Python `re.sub(r'\s+', ' ', ...)`.  The flag records whether the
previously consumed character was whitespace, in which case further whitespace
of the same run is dropped. -/
def collapseAux : Bool → List Char → List Char
  | _, [] => []
  | prevWs, c :: cs =>
    if isWs c then
      if prevWs then collapseAux true cs
      else ' ' :: collapseAux true cs
    else c :: collapseAux false cs

/-- Python `re.sub(r'\s+', ' ', l)`: collapse every whitespace run to one space. -/
def collapseWs (l : List Char) : List Char := collapseAux false l

/-- Python `str.strip()`: drop leading and trailing whitespace. -/
def stripWs (l : List Char) : List Char :=
  ((l.dropWhile isWs).reverse.dropWhile isWs).reverse

/-- The whitespace flag `collapseAux` carries after consuming `l`. -/
def wsFlagAfter : Bool → List Char → Bool
  | b, [] => b
  | _, c :: cs => wsFlagAfter (isWs c) cs

theorem collapseAux_cons (b : Bool) (c : Char) (cs : List Char) :
    collapseAux b (c :: cs) =
      (if isWs c then (if b then [] else [' ']) else [c]) ++ collapseAux (isWs c) cs := by
  by_cases h : isWs c = true <;> by_cases hb : b = true <;>
    simp [collapseAux, h, hb]

theorem collapseAux_append (b : Bool) (x y : List Char) :
    collapseAux b (x ++ y) = collapseAux b x ++ collapseAux (wsFlagAfter b x) y := by
  induction x generalizing b with
  | nil => simp [collapseAux, wsFlagAfter]
  | cons c cs ih =>
    rw [List.cons_append, collapseAux_cons, collapseAux_cons, ih (isWs c)]
    simp [wsFlagAfter]

theorem collapseAux_true_of_allWs (l : List Char) (h : l.all isWs = true) :
    collapseAux true l = [] := by
  induction l with
  | nil => rfl
  | cons c cs ih =>
    simp only [List.all_cons, Bool.and_eq_true] at h
    simp [collapseAux, h.1, ih h.2]

theorem collapseAux_false_of_allWs (l : List Char) (h : l.all isWs = true) :
    collapseAux false l = if l.isEmpty then [] else [' '] := by
  cases l with
  | nil => rfl
  | cons c cs =>
    simp only [List.all_cons, Bool.and_eq_true] at h
    simp [collapseAux, h.1, collapseAux_true_of_allWs cs h.2, List.isEmpty]

theorem collapseAux_flagFree (b : Bool) (l : List Char)
    (h : ∀ c, l.head? = some c → isWs c = false) :
    collapseAux b l = collapseAux false l := by
  cases l with
  | nil => rfl
  | cons c cs => simp [collapseAux, h c rfl]

theorem all_isWs_takeWhile (l : List Char) : (l.takeWhile isWs).all isWs = true := by
  induction l with
  | nil => rfl
  | cons c cs ih =>
    by_cases h : isWs c = true <;> simp [List.takeWhile_cons, h, ih]

theorem head_dropWhile_notWs (l : List Char) (c : Char) (cs : List Char)
    (h : l.dropWhile isWs = c :: cs) : isWs c = false := by
  induction l with
  | nil => simp [List.dropWhile] at h
  | cons a as ih =>
    rw [List.dropWhile_cons] at h
    by_cases ha : isWs a = true
    · exact ih (by simpa [ha] using h)
    · simp only [ha] at h
      simp only [Bool.false_eq_true, if_false] at h
      cases h
      simpa using ha

theorem wsFlagAfter_append_single (b : Bool) (x : List Char) (c : Char) :
    wsFlagAfter b (x ++ [c]) = isWs c := by
  induction x generalizing b with
  | nil => rfl
  | cons a as ih => simp [wsFlagAfter, ih]

theorem collapseAux_true_eq (cs : List Char) :
    collapseAux true cs = collapseAux false (cs.dropWhile isWs) := by
  induction cs with
  | nil => rfl
  | cons c cs ih =>
    by_cases h : isWs c = true
    · simp [collapseAux, h, List.dropWhile_cons, ih]
    · simp [collapseAux, h, List.dropWhile_cons]

theorem collapseWs_lstrip (m : List Char) :
    collapseWs m = (if (m.takeWhile isWs).isEmpty then ([] : List Char) else [' ']) ++
      collapseWs (m.dropWhile isWs) := by
  cases m with
  | nil => rfl
  | cons c cs =>
    by_cases h : isWs c = true
    · simp only [collapseWs, collapseAux, h, if_true, List.takeWhile_cons, List.dropWhile_cons,
        List.isEmpty_cons, List.singleton_append]
      rw [collapseAux_true_eq]
      simp
    · simp [collapseWs, collapseAux, h, List.takeWhile_cons, List.dropWhile_cons]

theorem collapseWs_rstrip (k : List Char) :
    collapseWs k = collapseWs ((k.reverse.dropWhile isWs).reverse) ++
      (if ((k.reverse.takeWhile isWs).reverse).isEmpty then ([] : List Char) else [' ']) := by
  have hk2 : k = (k.reverse.dropWhile isWs).reverse ++ (k.reverse.takeWhile isWs).reverse := by
    conv_lhs => rw [← List.reverse_reverse k]
    rw [← List.reverse_append, List.takeWhile_append_dropWhile]
  have hflag : wsFlagAfter false ((k.reverse.dropWhile isWs).reverse) = false := by
    rcases hdw : k.reverse.dropWhile isWs with _ | ⟨c, cs⟩
    · rfl
    · rw [List.reverse_cons, wsFlagAfter_append_single]
      exact head_dropWhile_notWs _ _ _ hdw
  conv_lhs => rw [collapseWs, hk2, collapseAux_append]
  rw [hflag,
    collapseAux_false_of_allWs ((k.reverse.takeWhile isWs).reverse)
      (by rw [List.all_reverse]; exact all_isWs_takeWhile _)]
  rfl

/-- Collapsing commutes with stripping up to one optional boundary space on each
side: `collapseWs m` is `collapseWs (stripWs m)` surrounded by at most one
space on the left and one on the right. -/
theorem collapseWs_strip_decomp (m : List Char) :
    ∃ a b : List Char, (a = [] ∨ a = [' ']) ∧ (b = [] ∨ b = [' ']) ∧
      collapseWs m = a ++ (collapseWs (stripWs m) ++ b) := by
  refine ⟨if (m.takeWhile isWs).isEmpty then [] else [' '],
    if (((m.dropWhile isWs).reverse.takeWhile isWs).reverse).isEmpty then [] else [' '],
    by split <;> simp, by split <;> simp, ?_⟩
  rw [collapseWs_lstrip m, collapseWs_rstrip (m.dropWhile isWs)]
  rfl

theorem containsSub_collapse_strip (m : List Char) :
    containsSub (collapseWs (stripWs m)) (collapseWs m) = true := by
  rcases collapseWs_strip_decomp m with ⟨a, b, _, _, hdec⟩
  rw [containsSub_iff]
  exact ⟨a, b, by rw [hdec]; simp⟩

/-- Worker for `splitOnWs`: `acc` holds the reversed characters of the word
currently being read. -/
def splitAux : List Char → List Char → List (List Char)
  | acc, [] => if acc.isEmpty then [] else [acc.reverse]
  | acc, c :: cs =>
    if isWs c then
      (if acc.isEmpty then splitAux [] cs else acc.reverse :: splitAux [] cs)
    else splitAux (c :: acc) cs

/-- Python `str.split()` (no argument): split on whitespace runs, dropping
empty fields. -/
def splitOnWs (l : List Char) : List (List Char) := splitAux [] l

theorem splitOnWs_nil : splitOnWs [] = [] := rfl

theorem splitOnWs_cons_ws (c : Char) (cs : List Char) (h : isWs c = true) :
    splitOnWs (c :: cs) = splitOnWs cs := by
  simp [splitOnWs, splitAux, h, List.isEmpty]

theorem splitAux_mid (l acc : List Char) (hacc : acc ≠ []) :
    splitAux acc l =
      (acc.reverse ++ l.takeWhile (fun d => !isWs d)) ::
        splitAux [] (l.dropWhile (fun d => !isWs d)) := by
  induction l generalizing acc with
  | nil =>
    have : acc.isEmpty = false := by
      cases acc with
      | nil => exact absurd rfl hacc
      | cons a as => rfl
    simp [splitAux, this]
  | cons c cs ih =>
    by_cases h : isWs c = true
    · have hae : acc.isEmpty = false := by
        cases acc with
        | nil => exact absurd rfl hacc
        | cons a as => rfl
      have hr : splitAux [] (c :: cs) = splitAux [] cs := by
        simp [splitAux, h, List.isEmpty]
      rw [show splitAux acc (c :: cs) = acc.reverse :: splitAux [] cs by
        simp [splitAux, h, hae]]
      rw [List.takeWhile_cons, List.dropWhile_cons]
      simp [h, hr]
    · have h' : isWs c = false := by simpa using h
      rw [show splitAux acc (c :: cs) = splitAux (c :: acc) cs by
        simp [splitAux, h']]
      rw [ih (c :: acc) (by simp), List.takeWhile_cons, List.dropWhile_cons]
      simp [h']

theorem splitOnWs_cons_word (c : Char) (cs : List Char) (h : isWs c = false) :
    splitOnWs (c :: cs) =
      (c :: cs.takeWhile (fun d => !isWs d)) ::
        splitOnWs (cs.dropWhile (fun d => !isWs d)) := by
  show splitAux [] (c :: cs) = _
  simp only [splitAux, h, Bool.false_eq_true, if_false]
  rw [splitAux_mid cs [c] (by simp)]
  rfl

theorem takeWhile_notWs_append_space (cs : List Char) :
    ((cs ++ [' ']).takeWhile (fun d => !isWs d)) = cs.takeWhile (fun d => !isWs d) := by
  induction cs with
  | nil => simp [List.takeWhile_cons, isWs]
  | cons a as ih =>
    by_cases h : isWs a = true <;>
      simp [List.takeWhile_cons, h, ih]

theorem dropWhile_notWs_append_space (cs : List Char) :
    ((cs ++ [' ']).dropWhile (fun d => !isWs d)) = cs.dropWhile (fun d => !isWs d) ++ [' '] := by
  induction cs with
  | nil => simp [List.dropWhile_cons, isWs]
  | cons a as ih =>
    by_cases h : isWs a = true <;>
      simp [List.dropWhile_cons, h, ih]

theorem splitOnWs_append_space_bounded :
    ∀ (n : Nat) (x : List Char), x.length ≤ n → splitOnWs (x ++ [' ']) = splitOnWs x := by
  intro n
  induction n with
  | zero =>
    intro x hx
    have : x = [] := List.length_eq_zero.1 (Nat.le_zero.1 hx)
    subst this
    simp [splitOnWs_cons_ws ' ' [] (by decide), splitOnWs_nil]
  | succ n ih =>
    intro x hx
    cases x with
    | nil => simp [splitOnWs_cons_ws ' ' [] (by decide), splitOnWs_nil]
    | cons c cs =>
      by_cases h : isWs c = true
      · rw [List.cons_append, splitOnWs_cons_ws c _ h, splitOnWs_cons_ws c _ h]
        exact ih cs (by simpa using Nat.lt_succ_iff.1 (Nat.lt_of_lt_of_le (by simp) hx))
      · have h' : isWs c = false := by simpa using h
        rw [List.cons_append, splitOnWs_cons_word c _ h', splitOnWs_cons_word c _ h',
          takeWhile_notWs_append_space, dropWhile_notWs_append_space]
        congr 1
        refine ih (cs.dropWhile (fun d => !isWs d)) ?_
        calc (cs.dropWhile (fun d => !isWs d)).length ≤ cs.length :=
              (List.dropWhile_sublist _).length_le
          _ ≤ n := by simpa using Nat.succ_le_succ_iff.1 hx

theorem splitOnWs_append_space (x : List Char) :
    splitOnWs (x ++ [' ']) = splitOnWs x :=
  splitOnWs_append_space_bounded x.length x le_rfl

/-- The word list of a collapsed string ignores the optional stripped boundary
whitespace: splitting `collapseWs (stripWs m)` and `collapseWs m` yields the
same words. -/
theorem splitOnWs_collapse_strip (m : List Char) :
    splitOnWs (collapseWs (stripWs m)) = splitOnWs (collapseWs m) := by
  rcases collapseWs_strip_decomp m with ⟨a, b, ha, hb, hdec⟩
  rw [hdec]
  rcases ha with rfl | rfl <;> rcases hb with rfl | rfl <;>
    simp only [List.nil_append, List.append_nil, List.singleton_append] <;>
    (try rw [splitOnWs_cons_ws ' ' _ (by decide)]) <;>
    (try rw [splitOnWs_append_space])

/-! ## A small regular-expression engine

Brzozowski-derivative matcher used to embed the Python `re` patterns of the
source.  `CC` is the closed set of character classes the source's patterns
use; keeping it first-order gives `RE` decidable equality, which the
simplifying constructors below use to keep derivatives small. -/

/-- Character classes occurring in the source's regular expressions. -/
inductive CC where
  | ch (c : Char)
  | ws
  | digit
  | digitComma
  | dotColon
  | dotColonWs
  | dotColonWsDash
deriving DecidableEq

def ccMatch : CC → Char → Bool
  | .ch c, d => c = d
  | .ws, d => isWs d
  | .digit, d => d.isDigit
  | .digitComma, d => d.isDigit || d = ','
  | .dotColon, d => d = '.' || d = ':'
  | .dotColonWs, d => d = '.' || d = ':' || isWs d
  | .dotColonWsDash, d => d = '.' || d = ':' || isWs d || d = '-'

/-- Regular expressions: empty language, empty string, one character of a
class, concatenation, alternation, Kleene star. -/
inductive RE where
  | emp
  | eps
  | tok (cc : CC)
  | seq (a b : RE)
  | alt (a b : RE)
  | star (r : RE)
deriving DecidableEq

/-- Smart `seq`: drops out when a factor is `emp`, simplifies `eps`. -/
def seqS : RE → RE → RE
  | .emp, _ => .emp
  | _, .emp => .emp
  | .eps, b => b
  | a, .eps => a
  | a, b => .seq a b

/-- Smart `alt`: drops `emp` alternatives. -/
def altS : RE → RE → RE
  | .emp, b => b
  | a, .emp => a
  | a, b => .alt a b

def nullable : RE → Bool
  | .emp => false
  | .eps => true
  | .tok _ => false
  | .seq a b => nullable a && nullable b
  | .alt a b => nullable a || nullable b
  | .star _ => true

def deriv : RE → Char → RE
  | .emp, _ => .emp
  | .eps, _ => .emp
  | .tok cc, c => if ccMatch cc c then .eps else .emp
  | .seq a b, c =>
    if nullable a then altS (seqS (deriv a c) b) (deriv b c)
    else seqS (deriv a c) b
  | .alt a b, c => altS (deriv a c) (deriv b c)
  | .star r, c => seqS (deriv r c) (.star r)

/-- Does `r` match some (possibly empty) leading segment of `l`? -/
def matchPref (r : RE) : List Char → Bool
  | [] => nullable r
  | c :: cs => nullable r || matchPref (deriv r c) cs

/-- Python `re.search`: does `r` match somewhere in `l`? -/
def reSearch (r : RE) : List Char → Bool
  | [] => matchPref r []
  | c :: cs => matchPref r (c :: cs) || reSearch r cs

/-- Python `re.search` with `re.MULTILINE` for a `^`-anchored pattern: the
match may start only at position 0 or right after a newline. -/
def lsAux (r : RE) : List Char → Bool
  | [] => false
  | c :: cs => (c = '\n' && matchPref r cs) || lsAux r cs

def reSearchLS (r : RE) (l : List Char) : Bool :=
  matchPref r l || lsAux r l

/-- Python `re.search` for a pattern starting with `\b` followed by a word
character: the match may start only at position 0 or right after a non-word
character. -/
def wbAux (r : RE) : List Char → Bool
  | [] => false
  | c :: cs => (!isWordChar c && matchPref r cs) || wbAux r cs

def reSearchWB (r : RE) (l : List Char) : Bool :=
  matchPref r l || wbAux r l

theorem matchPref_nil (r : RE) : matchPref r [] = nullable r := rfl

theorem matchPref_append (r : RE) (s t : List Char) (h : matchPref r s = true) :
    matchPref r (s ++ t) = true := by
  induction s generalizing r with
  | nil =>
    rw [matchPref_nil] at h
    cases t with
    | nil => exact h
    | cons c cs => simp [matchPref, h]
  | cons c cs ih =>
    simp only [matchPref, Bool.or_eq_true] at h
    rcases h with h | h
    · simp [matchPref, h]
    · simp [matchPref, ih _ h]

theorem reSearch_cons (r : RE) (c : Char) (cs : List Char) :
    reSearch r (c :: cs) = (matchPref r (c :: cs) || reSearch r cs) := rfl

theorem reSearch_append_left (r : RE) (x h : List Char)
    (hs : reSearch r h = true) : reSearch r (x ++ h) = true := by
  induction x with
  | nil => simpa using hs
  | cons c cs ih =>
    rw [List.cons_append, reSearch_cons, Bool.or_eq_true]
    exact Or.inr ih

theorem reSearch_append_right (r : RE) (h y : List Char)
    (hs : reSearch r h = true) : reSearch r (h ++ y) = true := by
  induction h with
  | nil =>
    have hn : nullable r = true := hs
    cases y with
    | nil => exact hs
    | cons c cs =>
      rw [List.nil_append, reSearch_cons, Bool.or_eq_true]
      exact Or.inl (by simp [matchPref, hn])
  | cons c cs ih =>
    rw [reSearch_cons, Bool.or_eq_true] at hs
    rw [List.cons_append, reSearch_cons, Bool.or_eq_true]
    rcases hs with hs | hs
    · exact Or.inl (by simpa using matchPref_append r (c :: cs) y hs)
    · exact Or.inr (ih hs)

/-- Searching is monotone in the haystack: a match inside a substring is a
match in the whole string. -/
theorem reSearch_of_containsSub (r : RE) {s h : List Char}
    (hsub : containsSub s h = true) (hs : reSearch r s = true) :
    reSearch r h = true := by
  rw [containsSub_iff] at hsub
  rcases hsub with ⟨u, v, rfl⟩
  rw [List.append_assoc]
  exact reSearch_append_left r u (s ++ v) (reSearch_append_right r s v hs)

/-! ## Pattern transcriptions (`src/stage1_parser.py`) -/

/-- Literal string as a regular expression. -/
def lit (s : String) : RE :=
  s.toList.foldr (fun c re => RE.seq (RE.tok (CC.ch c)) re) RE.eps

def chRE (c : Char) : RE := RE.tok (CC.ch c)

def catRE (l : List RE) : RE := l.foldr RE.seq RE.eps

def optRE (re : RE) : RE := RE.alt re RE.eps

def plusRE (re : RE) : RE := RE.seq re (RE.star re)

def wsP : RE := plusRE (RE.tok CC.ws)

def dP : RE := plusRE (RE.tok CC.digit)

def apos : Char := Char.ofNat 39

-- `notes?\s+to\s+(consolidated\s+)?financial\s+statements`
def reNotesToFin : RE :=
  catRE [lit (r"note"), optRE (chRE 's'), wsP, lit (r"to"), wsP,
    optRE (RE.seq (lit (r"consolidated")) wsP), lit (r"financial"), wsP, lit (r"statements")]

-- `notes?\s+to\s+the\s+(consolidated\s+)?financial\s+statements`
def reNotesToTheFin : RE :=
  catRE [lit (r"note"), optRE (chRE 's'), wsP, lit (r"to"), wsP, lit (r"the"), wsP,
    optRE (RE.seq (lit (r"consolidated")) wsP), lit (r"financial"), wsP, lit (r"statements")]

-- `note\s+\d+[\.\:\s]`  (used with `^`, both MULTILINE and not)
def reNoteLine : RE := catRE [lit (r"note"), wsP, dP, RE.tok CC.dotColonWs]

-- `footnotes?\s+to`
def reFootnotesTo : RE := catRE [lit (r"footnote"), optRE (chRE 's'), wsP, lit (r"to")]

-- `(significant\s+)?accounting\s+policies`
def reAcctPolicies : RE :=
  catRE [optRE (RE.seq (lit (r"significant")) wsP), lit (r"accounting"), wsP, lit (r"policies")]

-- `summary\s+of\s+significant\s+accounting\s+policies`
def reSummaryPolicies : RE :=
  catRE [lit (r"summary"), wsP, lit (r"of"), wsP, lit (r"significant"), wsP,
    lit (r"accounting"), wsP, lit (r"policies")]

-- `basis\s+of\s+presentation`
def reBasisPresentation : RE := catRE [lit (r"basis"), wsP, lit (r"of"), wsP, lit (r"presentation")]

-- `management'?s?\s+discussion\s+and\s+analysis`
def reMgmtDiscussion : RE :=
  catRE [lit (r"management"), optRE (chRE apos), optRE (chRE 's'), wsP,
    lit (r"discussion"), wsP, lit (r"and"), wsP, lit (r"analysis")]

-- `md&a`
def reMdA : RE := lit (r"md&a")

-- `results\s+of\s+operations`
def reResultsOps : RE := catRE [lit (r"results"), wsP, lit (r"of"), wsP, lit (r"operations")]

-- `consolidated\s+statements?\s+of\s+(operations?|income)`
def reConsStmtOpsIncome : RE :=
  catRE [lit (r"consolidated"), wsP, lit (r"statement"), optRE (chRE 's'), wsP, lit (r"of"), wsP,
    RE.alt (RE.seq (lit (r"operation")) (optRE (chRE 's'))) (lit (r"income"))]

-- `consolidated\s+balance\s+sheets?`
def reConsBalance : RE :=
  catRE [lit (r"consolidated"), wsP, lit (r"balance"), wsP, lit (r"sheet"), optRE (chRE 's')]

-- `consolidated\s+statements?\s+of\s+cash\s+flows?`
def reConsCashFlows : RE :=
  catRE [lit (r"consolidated"), wsP, lit (r"statement"), optRE (chRE 's'), wsP, lit (r"of"), wsP,
    lit (r"cash"), wsP, lit (r"flow"), optRE (chRE 's')]

-- `consolidated\s+statements?\s+of\s+(stockholders?|shareholders?)`
def reConsStockholders : RE :=
  catRE [lit (r"consolidated"), wsP, lit (r"statement"), optRE (chRE 's'), wsP, lit (r"of"), wsP,
    RE.alt (RE.seq (lit (r"stockholder")) (optRE (chRE 's')))
      (RE.seq (lit (r"shareholder")) (optRE (chRE 's')))]

-- `form\s+10-k`
def reForm10K : RE := catRE [lit (r"form"), wsP, lit (r"10-k")]

-- `annual\s+report`
def reAnnualReport : RE := catRE [lit (r"annual"), wsP, lit (r"report")]

-- `securities\s+and\s+exchange\s+commission`
def reSecComm : RE :=
  catRE [lit (r"securities"), wsP, lit (r"and"), wsP, lit (r"exchange"), wsP, lit (r"commission")]

-- `note\s+\d+\.`  (classifier sticky rule)
def reNoteNumDot : RE := catRE [lit (r"note"), wsP, dP, chRE '.']

-- `note\s+\d+[\.\:]`  (footnote-merge embedded-statement rule)
def reNoteNumPunct : RE := catRE [lit (r"note"), wsP, dP, RE.tok CC.dotColon]

-- `\bnote\s+1[\.\:\s\-]`  (sticky entry; the `\b` is handled by `reSearchWB`)
def reNoteOne : RE := catRE [lit (r"note"), wsP, chRE '1', RE.tok CC.dotColonWsDash]

-- `exhibit\s+index`
def reExhibitIdx : RE := catRE [lit (r"exhibit"), wsP, lit (r"index")]

-- `exhibits?\s+and\s+financial`
def reExhibitsAndFin : RE :=
  catRE [lit (r"exhibit"), optRE (chRE 's'), wsP, lit (r"and"), wsP, lit (r"financial")]

-- `part\s+iv`
def rePartIv : RE := catRE [lit (r"part"), wsP, lit (r"iv")]

-- `power\s+of\s+attorney`
def rePowerAttorney : RE := catRE [lit (r"power"), wsP, lit (r"of"), wsP, lit (r"attorney")]

def allWs (l : List Char) : Bool := l.all isWs

def sSignature : List Char := "signature".toList

/-- Does `signatures?\s*$` (no MULTILINE) match starting at the head of `l`?
Without MULTILINE, `$` accepts only the end of the string or a final newline,
and `\s*` may consume that newline, so the pattern matches exactly when
everything after `signature` and its optional `s` is whitespace. -/
def sigHere (l : List Char) : Bool :=
  startsWith sSignature l &&
    (match l.drop 9 with
     | 's' :: r2 => allWs r2
     | r => allWs r)

/-- `re.search(r'signatures?\s*$', l)` without MULTILINE. -/
def sigEnd : List Char → Bool
  | [] => false
  | c :: cs => sigHere (c :: cs) || sigEnd cs

/-! ## Stage-1 data model and section assembly (`src/stage1_parser.py`) -/

/-- `section_type` values; `business` appears only in Stage-2 configuration
(`BLOCKS` priority sections), never as a classifier output.  The Python
string `'md&a'` is spelled `mda`. -/
inductive Label where
  | notes
  | accounting_policies
  | mda
  | financial_statements
  | cover
  | business
  | other
deriving DecidableEq

/-- A page record `{page_num, text}` (extracted tables are opaque to every
property considered here and are omitted). -/
structure Page where
  num : Nat
  text : List Char
deriving DecidableEq

/-- A detected `Section` (again without the opaque `tables` payload;
`note_boundaries` is advisory metadata attached after assembly and never
changes the section list, so it is omitted as well). -/
structure Section where
  name : List Char
  sectionType : Label
  startPage : Nat
  endPage : Nat
  text : List Char
deriving DecidableEq

/-- `DocumentParser.SECTION_PATTERNS`, in dict order.  The third `notes`
pattern is `^note\s+\d+[\.\:\s]`; in the dict loop it is searched without
`re.MULTILINE`, so `^` anchors it to the start of the page text only. -/
def SECTION_PATTERNS : List (Label × List (List Char → Bool)) :=
  [ (Label.notes,
      [fun tl => reSearch reNotesToFin tl,
       fun tl => reSearch reNotesToTheFin tl,
       fun tl => matchPref reNoteLine tl,
       fun tl => reSearch reFootnotesTo tl]),
    (Label.accounting_policies,
      [fun tl => reSearch reAcctPolicies tl,
       fun tl => reSearch reSummaryPolicies tl,
       fun tl => reSearch reBasisPresentation tl]),
    (Label.mda,
      [fun tl => reSearch reMgmtDiscussion tl,
       fun tl => reSearch reMdA tl,
       fun tl => reSearch reResultsOps tl]),
    (Label.financial_statements,
      [fun tl => reSearch reConsStmtOpsIncome tl,
       fun tl => reSearch reConsBalance tl,
       fun tl => reSearch reConsCashFlows tl,
       fun tl => reSearch reConsStockholders tl]),
    (Label.cover,
      [fun tl => reSearch reForm10K tl,
       fun tl => reSearch reAnnualReport tl,
       fun tl => reSearch reSecComm tl]) ]

/-- `DocumentParser._classify_page`. -/
def classifyPage (textLower : List Char) (inNotes : Bool) : Label :=
  if inNotes && reSearch reNoteNumDot textLower then Label.notes
  else if reSearchLS reNoteLine textLower then Label.notes
  else
    match SECTION_PATTERNS.find? (fun e => e.2.any (fun p => p textLower)) with
    | some e => e.1
    | none => Label.other

/-- `DocumentParser._is_notes_exit` (the `page_num` parameter is unused in the
source). -/
def isNotesExit (textLower : List Char) : Bool :=
  sigEnd textLower ||
  reSearch reExhibitIdx textLower ||
  reSearch reExhibitsAndFin textLower ||
  reSearch rePartIv textLower ||
  reSearch rePowerAttorney textLower

/-- The sticky-entry condition of `_detect_sections` (lines 171-178): a
word-boundary `note 1` match anywhere in the lowered text and more than 1000
raw characters on the page. -/
def entersNotes (text : List Char) : Bool :=
  reSearchWB reNoteOne (toLowerL text) && decide (1000 < text.length)

/-- The per-page decision of `_detect_sections`: classification, sticky entry,
sticky exit / override, and the fragmented-notes re-check, returning the new
sticky flag and the final detected type. -/
def detectDecide (inNotes : Bool) (p : Page) : Bool × Label :=
  let tl := toLowerL p.text
  let d0 := classifyPage tl inNotes
  let s1 := if !inNotes && entersNotes p.text then (true, Label.notes) else (inNotes, d0)
  let s2 := if s1.1 then (if isNotesExit tl then (false, s1.2) else (true, Label.notes)) else s1
  if !s2.1 && reSearchLS reNoteLine tl then (s2.1, Label.notes) else s2

/-- `DocumentParser._get_section_name` (the `text` argument of the source is
ignored there). -/
def getSectionName : Label → List Char
  | Label.notes => "Notes to Financial Statements".toList
  | Label.accounting_policies => "Accounting Policies".toList
  | Label.mda => ( "Management".toList) ++ [apos] ++ ( "s Discussion and Analysis".toList)
  | Label.financial_statements => "Financial Statements".toList
  | Label.cover => "Cover Pages".toList
  | Label.business => "Other Content".toList
  | Label.other => "Other Content".toList

/-- `f"\n\n[PAGE {n}]\n"`. -/
def pageMarker (n : Nat) : List Char :=
  ( "\n\n[PAGE ".toList) ++ Nat.toDigits 10 n ++ ( "]\n".toList)

/-- Python truthiness of `section_text.strip()`. -/
def hasContent (l : List Char) : Bool := l.any (fun c => !isWs c)

/-- The loop state of `_detect_sections`. -/
structure DetectState where
  inNotes : Bool
  currentType : Label
  currentStart : Nat
  sectionText : List Char
  sections : List Section

/-- One iteration of the `_detect_sections` page loop. -/
def detectStep (st : DetectState) (p : Page) : DetectState :=
  let r := detectDecide st.inNotes p
  if r.2 ≠ st.currentType ∧ r.2 ≠ Label.other then
    { inNotes := r.1, currentType := r.2, currentStart := p.num,
      sectionText := pageMarker p.num ++ p.text,
      sections := st.sections ++
        (if hasContent st.sectionText then
          [⟨getSectionName st.currentType, st.currentType, st.currentStart, p.num - 1,
            st.sectionText⟩]
         else []) }
  else
    { st with inNotes := r.1, sectionText := st.sectionText ++ (pageMarker p.num ++ p.text) }

/-- Pages as produced by `_extract_pages`: 1-based contiguous numbering. -/
def pagesOf (texts : List (List Char)) : List Page :=
  (List.enumFrom 1 texts).map (fun e => ⟨e.1, e.2⟩)

def initState : DetectState := ⟨false, Label.other, 1, [], []⟩

/-- `_detect_sections` before the merge pass: the page loop plus the final
close of the accumulating section. -/
def detectPass1 (texts : List (List Char)) : List Section :=
  let st := (pagesOf texts).foldl detectStep initState
  st.sections ++
    (if hasContent st.sectionText then
      [⟨getSectionName st.currentType, st.currentType, st.currentStart, texts.length,
        st.sectionText⟩]
     else [])

def notesOf (sections : List Section) : List Section :=
  sections.filter (fun s => decide (s.sectionType = Label.notes))

/-- Sorting key of the final `self.sections.sort(key=lambda s: s.start_page)`. -/
def secLE (s t : Section) : Prop := s.startPage ≤ t.startPage

instance : DecidableRel secLE := fun s t => Nat.decLe s.startPage t.startPage

instance : IsTotal Section secLE := ⟨fun s t => Nat.le_total s.startPage t.startPage⟩

instance : IsTrans Section secLE := ⟨fun _ _ _ => Nat.le_trans⟩

/-- `DocumentParser._merge_notes_sections`.  All pre-merge section start pages
are pairwise distinct (they are cut points of one pass over increasing page
numbers), so any sort by `start_page` agrees with Python's stable sort. -/
def mergeNotesSections (pages : List Page) (sections : List Section) : List Section :=
  match notesOf sections with
  | [] => sections
  | n :: ns =>
    let minStart := ns.foldl (fun a s => min a s.startPage) n.startPage
    let maxEnd0 := ns.foldl (fun a s => max a s.endPage) n.endPage
    let maxEnd := sections.foldl
      (fun me s =>
        if s.sectionType = Label.financial_statements ∧
            minStart ≤ s.startPage ∧ s.startPage ≤ me + 5 ∧
            reSearch reNoteNumPunct (toLowerL s.text) = true
        then max me s.endPage else me) maxEnd0
    let mergedText := pages.foldl
      (fun acc p =>
        if minStart ≤ p.num ∧ p.num ≤ maxEnd then acc ++ (pageMarker p.num ++ p.text)
        else acc) []
    let merged : Section :=
      ⟨ "Notes to Financial Statements".toList, Label.notes, minStart, maxEnd, mergedText⟩
    let kept := sections.filter (fun s =>
      !(decide (s.sectionType = Label.notes) ||
        (decide (s.sectionType = Label.financial_statements) &&
         decide (minStart ≤ s.startPage) && decide (s.startPage ≤ maxEnd))))
    List.insertionSort secLE (kept ++ [merged])

/-- `_detect_sections` as a whole: page loop, final close, footnote merge.
(`_detect_individual_notes` only attaches advisory `note_boundaries` metadata
and never changes the section list, so it is not modelled.) -/
def detectSections (texts : List (List Char)) : List Section :=
  mergeNotesSections (pagesOf texts) (detectPass1 texts)

/-! ## Evidence verification (`src/stage2_verbatim.py`, `src/stage2_gemini.py`)

Python's `matches >= len(words) * 0.6` compares an integer with the IEEE
double `len(words) * 0.6`.  For every list length `n` the double product
`n * 0.6` rounds to exactly `3n/5` whenever `3n/5` is an integer (the error
`n * (3/5 - 0.6_double)` is below half an ulp), so the comparison agrees with
the exact rational test `5 * matches ≥ 3 * n`, which is how it is embedded. -/

/-- `VerbatimExtractor._verify_evidence`: length guard, whitespace
normalization, exact first-100-characters check, then the fuzzy fallback over
unique words longer than 3 characters. -/
def verifyEvidence (evidenceText sourceText : List Char) : Bool :=
  if evidenceText.length < 20 then false
  else
    let evidenceClean := collapseWs (stripWs (toLowerL evidenceText))
    let sourceClean := collapseWs (toLowerL sourceText)
    if containsSub (evidenceClean.take 100) sourceClean then true
    else
      let evidenceWords := ((splitOnWs evidenceClean).filter (fun w => decide (3 < w.length))).dedup
      if evidenceWords.isEmpty then false
      else
        let matched := (evidenceWords.filter (fun w => containsSub w sourceClean)).length
        decide (5 * matched ≥ 3 * evidenceWords.length)

/-- `GeminiVerbatimExtractor._verify_evidence`: same exact check, but the
fuzzy fallback counts matched words longer than 4 characters against the set
of all unique words (no length filter in the denominator, no empty guard). -/
def verifyEvidenceGemini (evidenceText sourceText : List Char) : Bool :=
  if evidenceText.length < 20 then false
  else
    let evidenceClean := collapseWs (stripWs (toLowerL evidenceText))
    let sourceClean := collapseWs (toLowerL sourceText)
    if containsSub (evidenceClean.take 100) sourceClean then true
    else
      let evidenceWords := (splitOnWs evidenceClean).dedup
      let matched := (evidenceWords.filter
        (fun w => containsSub w sourceClean && decide (4 < w.length))).length
      decide (5 * matched ≥ 3 * evidenceWords.length)

/-! ## Chunk scoring and extraction (`VerbatimExtractor`) -/

def altL (l : List RE) : RE := l.foldr RE.alt RE.emp

def reMonths : RE :=
  altL [lit (r"january"), lit (r"february"), lit (r"march"), lit (r"april"), lit (r"may"),
    lit (r"june"), lit (r"july"), lit (r"august"), lit (r"september"), lit (r"october"),
    lit (r"november"), lit (r"december")]

-- `\$[\d,]+\s*(million|billion|thousand)?`
def reDollar : RE :=
  catRE [chRE '$', plusRE (RE.tok CC.digitComma), RE.star (RE.tok CC.ws),
    optRE (altL [lit (r"million"), lit (r"billion"), lit (r"thousand")])]

def d4 : RE := catRE [RE.tok CC.digit, RE.tok CC.digit, RE.tok CC.digit, RE.tok CC.digit]

-- `(january|...|december)\s+\d{1,2},?\s+\d{4}`
def reMonthDayYear : RE :=
  catRE [reMonths, wsP, RE.tok CC.digit, optRE (RE.tok CC.digit), optRE (chRE ','), wsP, d4]

-- `(january|...|december)\s+\d{4}`
def reMonthYear : RE := catRE [reMonths, wsP, d4]

-- `(fiscal\s+)?(year|years)\s+(ended|ending)`
def reFiscalYear : RE :=
  catRE [optRE (RE.seq (lit (r"fiscal")) wsP), RE.alt (lit (r"year")) (lit (r"years")), wsP,
    RE.alt (lit (r"ended")) (lit (r"ending"))]

-- `december\s+31,?\s+\d{4}`
def reDec31 : RE := catRE [lit (r"december"), wsP, lit (r"31"), optRE (chRE ','), wsP, d4]

-- `\d+\s+\d+\s+\d+`
def reTableNums : RE := catRE [dP, wsP, dP, wsP, dP]

def policyTerms : List (List Char) :=
  [r"fair value".toList, r"consideration".toList, r"recognized".toList, r"transferred".toList,
   r"aggregate".toList, r"purchase price".toList, r"allocated".toList, r"carrying amount".toList,
   r"useful life".toList, r"depreciation".toList, r"amortization".toList, r"impairment".toList,
   r"deferred tax".toList, r"valuation allowance".toList, r"intangible asset".toList,
   r"straight-line".toList, r"weighted average".toList, r"cost basis".toList]

def genericTerms : List (List Char) :=
  [r"may pursue".toList, r"could result".toList, r"risks and uncertainties".toList,
   r"forward-looking".toList, r"no assurance".toList, r"cannot predict".toList,
   r"subject to change".toList, r"may not be indicative".toList]

def sTableOfContents : List Char := "table of contents".toList

/-- `VerbatimExtractor._score_chunk`.  All checks but the table-like-numbers
one run on the lowercased chunk text; the `\d+\s+\d+\s+\d+` check runs on the
original `chunk_text` (source line 517). -/
def scoreChunk (chunkText : List Char) : Int :=
  let textLower := toLowerL chunkText
  let s1 : Int := if reSearch reDollar textLower then 30 else 0
  let s2 : Int :=
    if reSearch reMonthDayYear textLower then 20
    else if reSearch reMonthYear textLower then 15
    else 0
  let s3 : Int := if reSearch reFiscalYear textLower then 10 else 0
  let s4 : Int := if reSearch reDec31 textLower then 10 else 0
  let s5 : Int :=
    policyTerms.foldl (fun acc t => if containsSub t textLower then acc + 5 else acc) 0
  let s6 : Int := if reSearch reTableNums chunkText then 15 else 0
  let s7 : Int :=
    genericTerms.foldl (fun acc t => if containsSub t textLower then acc - 10 else acc) 0
  let s8 : Int := if containsSub sTableOfContents textLower then -20 else 0
  s1 + s2 + s3 + s4 + s5 + s6 + s7 + s8

def isWordOpt : Option Char → Bool
  | none => false
  | some c => isWordChar c

/-- Does the escaped keyword pattern match at the head of `l`?  When `wb` is
set the pattern is `\b...\b`: a Python word boundary needs the word-character
status to differ across it (`prev` is the character before the match). -/
def kwHere (kw : List Char) (wb : Bool) (prev : Option Char) (l : List Char) : Bool :=
  startsWith kw l &&
    (!wb ||
      (match kw.head?, kw.getLast? with
       | some f, some g =>
         (isWordOpt prev != isWordChar f) &&
           (isWordChar g != isWordOpt ((l.drop kw.length).head?))
       | _, _ => false))

/-- `re.finditer` for the escaped keyword: successive non-overlapping matches,
left to right, as `(start, end)` index pairs.  `fuel` is initialized to the
text length by the caller; each step consumes at least one character, so the
scan never runs out of fuel. -/
def findKwGo (kw : List Char) (wb : Bool) :
    Nat → Option Char → Nat → List Char → List (Nat × Nat)
  | 0, _, _, _ => []
  | _ + 1, _, _, [] => []
  | fuel + 1, prev, pos, c :: cs =>
    if kwHere kw wb prev (c :: cs) then
      (pos, pos + kw.length) ::
        findKwGo kw wb fuel kw.getLast? (pos + kw.length) ((c :: cs).drop kw.length)
    else findKwGo kw wb fuel (some c) (pos + 1) cs

/-- `while start > 0 and text[start] not in '\n': start -= 1`. -/
def snapStart (text : List Char) : Nat → Nat
  | 0 => 0
  | s + 1 => if text.getD (s + 1) ' ' = '\n' then s + 1 else snapStart text s

/-- `while end < len(text) and text[end] not in '\n': end += 1`
(fuel-driven; the caller passes the text length, which bounds the walk). -/
def snapEnd (text : List Char) : Nat → Nat → Nat
  | 0, e => e
  | fuel + 1, e =>
    if e < text.length then
      (if text.getD e ' ' = '\n' then e else snapEnd text fuel (e + 1))
    else e

def sPageOpen : List Char := "[PAGE".toList

/-- Does `\[PAGE\s+(\d+)\]` match at the head of `l`?  Returns the whole
matched text (`group(0)`). -/
def parseMarkerHere (l : List Char) : Option (List Char) :=
  if startsWith sPageOpen l then
    let rest := l.drop 5
    let wsPart := rest.takeWhile isWs
    if wsPart.isEmpty then none
    else
      let rest2 := rest.dropWhile isWs
      let ds := rest2.takeWhile Char.isDigit
      if ds.isEmpty then none
      else
        match (rest2.dropWhile Char.isDigit).head? with
        | some ']' => some (sPageOpen ++ wsPart ++ ds ++ [']'])
        | _ => none
  else none

/-- `re.search(r'\[PAGE\s+(\d+)\]', l)`: leftmost match. -/
def findMarker : List Char → Option (List Char)
  | [] => none
  | c :: cs =>
    match parseMarkerHere (c :: cs) with
    | some m => some m
    | none => findMarker cs

/-- A scored chunk record `{chunk, score, keyword, position}`. -/
structure Chunk where
  chunk : List Char
  score : Int
  keyword : List Char
  position : Nat
deriving DecidableEq

/-- Keyword preorder of `sorted(keywords, key=len, reverse=True)`. -/
def kwGE (a b : List Char) : Prop := b.length ≤ a.length

instance : DecidableRel kwGE := fun a b => Nat.decLe b.length a.length

instance : IsTotal (List Char) kwGE := ⟨fun a b => Nat.le_total b.length a.length⟩

instance : IsTrans (List Char) kwGE := ⟨fun _ _ _ h1 h2 => Nat.le_trans h2 h1⟩

/-- Steps 1-6 of `VerbatimExtractor._extract_relevant_chunks`: all keyword
matches with windowing, paragraph snapping, coarse-range deduplication, page
marker recovery and scoring, in collection order.  The pair threaded through
the folds is `(seen_ranges, scored_chunks)`. -/
def collectScoredChunks (text : List Char) (keywords : List (List Char))
    (chunkSize : Nat) : List Chunk :=
  let textLower := toLowerL text
  let sortedKeywords := List.insertionSort kwGE keywords
  let res := sortedKeywords.foldl
    (fun (st : List (Nat × Nat) × List Chunk) kw =>
      if kw.length < 3 then st
      else
        let kwl := toLowerL kw
        let wb := decide (kw.length ≤ 4)
        let ms := findKwGo kwl wb textLower.length none 0 textLower
        ms.foldl
          (fun (st2 : List (Nat × Nat) × List Chunk) m =>
            let start0 := m.1 - chunkSize / 2
            let end0 := min text.length (m.2 + chunkSize / 2)
            let start := snapStart text start0
            let stop := snapEnd text text.length end0
            let rangeKey := (start / 1000, stop / 1000)
            if rangeKey ∈ st2.1 then st2
            else
              let windowBefore := (text.drop (start - 200)).take (start - (start - 200))
              let pageMk := (findMarker windowBefore).getD []
              let chunk0 := stripWs ((text.drop start).take (stop - start))
              let chunk :=
                if !pageMk.isEmpty && !containsSub pageMk chunk0 then
                  pageMk ++ [ '\n' ] ++ chunk0
                else chunk0
              (rangeKey :: st2.1, st2.2 ++ [⟨chunk, scoreChunk chunk, kw, start⟩]))
          st)
    ([], [])
  res.2

/-- The sort key `(-score, position)` as a total preorder: higher score first,
ties broken by ascending position. -/
def chunkLE (a b : Chunk) : Prop :=
  b.score < a.score ∨ (a.score = b.score ∧ a.position ≤ b.position)

instance : DecidableRel chunkLE := fun a b => by unfold chunkLE; infer_instance

instance : IsTotal Chunk chunkLE :=
  ⟨fun a b => by unfold chunkLE; rcases lt_trichotomy a.score b.score with h | h | h <;> omega⟩

instance : IsTrans Chunk chunkLE :=
  ⟨fun a b c h1 h2 => by unfold chunkLE at h1 h2 ⊢; omega⟩

/-- Step 7 of `_extract_relevant_chunks`: sort by `(-score, position)` and
keep the first `maxChunks` chunks. -/
def extractRelevantChunksList (text : List Char) (keywords : List (List Char))
    (chunkSize maxChunks : Nat) : List Chunk :=
  (List.insertionSort chunkLE (collectScoredChunks text keywords chunkSize)).take maxChunks

def chunkSep : List Char := "\n\n---\n\n".toList

def sepJoin (sep : List Char) : List (List Char) → List Char
  | [] => []
  | [x] => x
  | x :: y :: xs => x ++ sep ++ sepJoin sep (y :: xs)

/-- `_extract_relevant_chunks` with its default parameters
(`chunk_size=3000`, `max_chunks=15`): the joined excerpt text. -/
def extractRelevantChunks (text : List Char) (keywords : List (List Char)) : List Char :=
  sepJoin chunkSep ((extractRelevantChunksList text keywords 3000 15).map (fun c => c.chunk))

/-! ## Block post-processing (`_extract_block` of both extractors)

The structured candidate list returned by the external generative process is
modelled as a list of `(category name, candidate list)` pairs, already parsed
from JSON; building `extraction_map` by dict comprehension makes the *last*
entry with a given category name win. -/

/-- An `EvidenceCandidate` as the Gemini extractor reads it from the model
output (`e.get('text','')` etc.; `sect` is the Python `section` field). -/
structure RawEvidence where
  text : List Char
  page : Nat
  sect : List Char
  confidence : List Char
deriving DecidableEq

/-- `stage2_gemini.Evidence`. -/
structure Evidence where
  text : List Char
  page : Nat
  sect : List Char
  confidence : List Char
  flags : List (List Char)
  verified : Bool
deriving DecidableEq

/-- `stage2_gemini.CategoryExtraction` (without the raw-response payload). -/
structure CategoryExtraction where
  categoryId : List Char
  categoryName : List Char
  block : List Char
  evidence : List Evidence
deriving DecidableEq

/-- A candidate as the verbatim extractor reads it (adds `match_keyword`). -/
structure RawEvidenceV where
  text : List Char
  page : Nat
  sect : List Char
  matchKeyword : List Char
  confidence : List Char
deriving DecidableEq

/-- `stage2_verbatim.Evidence`. -/
structure EvidenceV where
  text : List Char
  page : Nat
  sect : List Char
  matchKeyword : List Char
  confidence : List Char
  verified : Bool
deriving DecidableEq

/-- `stage2_verbatim.CategoryExtraction`. -/
structure CategoryExtractionV where
  block : List Char
  category : List Char
  evidence : List EvidenceV
deriving DecidableEq

def flagUNVERIFIED : List Char := "UNVERIFIED".toList

/-- `{e['category']: e for e in extractions}` followed by `.get cn`: the last
entry with key `cn` wins. -/
def extractionMapLookup {α : Type} (entries : List (List Char × α)) (cn : List Char) :
    Option α :=
  entries.foldl (fun acc e => if e.1 = cn then some e.2 else acc) none

/-- The post-processing loop of `GeminiVerbatimExtractor._extract_block`
(after JSON parsing): one `CategoryExtraction` per configured category
`(cat_id, cat_name)`, candidates verified against the block's section text and
flagged `UNVERIFIED` when verification fails. -/
def extractBlockGemini (blockName : List Char) (cats : List (List Char × List Char))
    (entries : List (List Char × List RawEvidence)) (sectionText : List Char) :
    List CategoryExtraction :=
  cats.map (fun c =>
    let evs := (extractionMapLookup entries c.2).getD []
    let evidenceList := evs.map (fun ev =>
      let verified := verifyEvidenceGemini ev.text sectionText
      ⟨ev.text, ev.page, ev.sect, ev.confidence,
        if verified then [] else [flagUNVERIFIED], verified⟩)
    ⟨c.1, c.2, blockName, evidenceList⟩)

/-- The post-processing loop of `VerbatimExtractor._extract_block` (after
JSON parsing): verification runs against the whole document text. -/
def extractBlockVerbatim (blockName : List Char) (catNames : List (List Char))
    (entries : List (List Char × List RawEvidenceV)) (fullText : List Char) :
    List CategoryExtractionV :=
  catNames.map (fun cn =>
    let evs := (extractionMapLookup entries cn).getD []
    ⟨blockName, cn,
      evs.map (fun ev =>
        ⟨ev.text, ev.page, ev.sect, ev.matchKeyword, ev.confidence,
          verifyEvidence ev.text fullText⟩)⟩)

/-- `BLOCKS["Business Overview"]["priority_sections"]`:
`["md&a", "business", "notes"]`. -/
def prioritySectionsBusinessOverview : List Label :=
  [Label.mda, Label.business, Label.notes]

/-! ## Claim-side definitions

These transcribe the *spec's* wording (for comparison against the definitions
above, which transcribe the source). -/

/-- The spec's normalization: collapse whitespace runs to single spaces and
lowercase (spec rule 2 of the verifier; no stripping). -/
def normalizeWs (l : List Char) : List Char := collapseWs (toLowerL l)

/-- Claim wording (C5): the set of unique words of the normalized candidate
strictly longer than `minLen`. -/
def claimWords (minLen : Nat) (cand : List Char) : List (List Char) :=
  ((splitOnWs (normalizeWs cand)).filter (fun w => decide (minLen < w.length))).dedup

/-- Claim wording (C5): all unique words of the normalized candidate. -/
def claimAllWords (cand : List Char) : List (List Char) :=
  (splitOnWs (normalizeWs cand)).dedup

/-- Claim wording (C5): how many of the `claimWords` occur in the normalized
source. -/
def claimMatched (minLen : Nat) (cand source : List Char) : Nat :=
  ((claimWords minLen cand).filter (fun w => containsSub w (normalizeWs source))).length

/-- Claim wording (C5): "return true iff the matched fraction over that
filtered word set is at least 0.6". -/
def fuzzyRuleClaim (minLen : Nat) (cand source : List Char) : Bool :=
  !(claimWords minLen cand).isEmpty &&
    decide (5 * claimMatched minLen cand source ≥ 3 * (claimWords minLen cand).length)

/-! ## C1 -/

/-- C1: Verification round-trip.  For every source text and candidate of at
least 20 characters whose whitespace-normalized, lowercased form occurs
verbatim in the normalized source, both `_verify_evidence` variants return
true (via the exact first-100-characters check). -/
theorem verify_roundTrip (cand source : List Char)
    (hlen : 20 ≤ cand.length)
    (hsub : containsSub (normalizeWs cand) (normalizeWs source) = true) :
    verifyEvidence cand source = true ∧ verifyEvidenceGemini cand source = true := by
  have h1 : containsSub ((collapseWs (stripWs (toLowerL cand))).take 100)
      (collapseWs (toLowerL cand)) = true :=
    containsSub_take 100 (containsSub_collapse_strip (toLowerL cand))
  have hexact : containsSub ((collapseWs (stripWs (toLowerL cand))).take 100)
      (collapseWs (toLowerL source)) = true :=
    containsSub_trans h1 hsub
  refine ⟨?_, ?_⟩
  · unfold verifyEvidence
    rw [if_neg (by omega)]
    simp [hexact]
  · unfold verifyEvidenceGemini
    rw [if_neg (by omega)]
    simp [hexact]

def candC1 : List Char := "the quick brown fox jumps high".toList

def srcC1 : List Char := "zz  The Quick Brown  fox jumps high  yy".toList

theorem verify_roundTrip_witness :
    20 ≤ candC1.length ∧
    containsSub (normalizeWs candC1) (normalizeWs srcC1) = true ∧
    verifyEvidence candC1 srcC1 = true :=
  ⟨by decide, by decide, (verify_roundTrip candC1 srcC1 (by decide) (by decide)).1⟩

/-! ## C5 -/

theorem codeWords_eq_claimWords (cand : List Char) :
    ((splitOnWs (collapseWs (stripWs (toLowerL cand)))).filter
        (fun w => decide (3 < w.length))).dedup = claimWords 3 cand := by
  rw [splitOnWs_collapse_strip]
  rfl

theorem codeAllWords_eq_claimAllWords (cand : List Char) :
    (splitOnWs (collapseWs (stripWs (toLowerL cand)))).dedup = claimAllWords cand := by
  rw [splitOnWs_collapse_strip]
  rfl

/-- C5 (amended): when the exact 100-character check fails, the
`stage2_verbatim` variant returns true iff at least 60 percent of the unique
words longer than 3 characters occur in the normalized source (false when no
such word exists), while the `stage2_gemini` variant counts only matched words
longer than 4 characters but divides by the number of *all* unique words of
the candidate. -/
theorem fuzzy_fallback (cand source : List Char)
    (hlen : 20 ≤ cand.length)
    (hexact : containsSub ((collapseWs (stripWs (toLowerL cand))).take 100)
        (collapseWs (toLowerL source)) = false) :
    (claimWords 3 cand ≠ [] →
      (verifyEvidence cand source = true ↔
        5 * claimMatched 3 cand source ≥ 3 * (claimWords 3 cand).length)) ∧
    (verifyEvidenceGemini cand source = true ↔
      5 * ((claimAllWords cand).filter
            (fun w => containsSub w (normalizeWs source) && decide (4 < w.length))).length ≥
        3 * (claimAllWords cand).length) := by
  constructor
  · intro hne
    simp only [verifyEvidence]
    rw [if_neg (by omega), if_neg (by simp [hexact])]
    rw [codeWords_eq_claimWords]
    have hie : (claimWords 3 cand).isEmpty = false := by
      rcases h : claimWords 3 cand with _ | ⟨w, ws⟩
      · exact absurd h hne
      · rfl
    rw [hie]
    simp only [Bool.false_eq_true, if_false]
    exact decide_eq_true_iff
  · simp only [verifyEvidenceGemini]
    rw [if_neg (by omega), if_neg (by simp [hexact])]
    rw [codeAllWords_eq_claimAllWords]
    exact decide_eq_true_iff

def candC5 : List Char := "alphabet qq ww ee rr zz xx".toList

def srcC5 : List Char := "alphabet mnop".toList

/-- C5 counterexample: for the minimum-length-4 variant (`stage2_gemini`), the
claim's rule (fraction over the *filtered* word set) says `true` — the only
word longer than 4 characters, `alphabet`, occurs in the source — yet the code
returns `false`, because it divides by the count of all seven unique words.
The side conditions show the counterexample is in the claim's scope: the
candidate has at least 20 characters and the exact check fails. -/
theorem fuzzy_fallback_cx :
    verifyEvidenceGemini candC5 srcC5 = false ∧
    fuzzyRuleClaim 4 candC5 srcC5 = true ∧
    20 ≤ candC5.length ∧
    containsSub ((collapseWs (stripWs (toLowerL candC5))).take 100)
      (collapseWs (toLowerL srcC5)) = false := by
  refine ⟨by decide, by decide, by decide, by decide⟩

def candW5 : List Char := "alpha bravo charlie delta echo".toList

def srcW5 : List Char := "alpha bravo charlie delta foxtrot".toList

theorem fuzzy_fallback_witness :
    verifyEvidence candW5 srcW5 = true ∧ verifyEvidenceGemini candW5 srcW5 = true :=
  ⟨((fuzzy_fallback candW5 srcW5 (by decide) (by decide)).1 (by decide)).mpr (by decide),
   ((fuzzy_fallback candW5 srcW5 (by decide) (by decide)).2).mpr (by decide)⟩

/-! ## C3 -/

/-- Claim wording (C3): the page "matches a 'note 1' pattern at a line start"
and has more than 1000 raw characters. -/
def entersNotesClaim (text : List Char) : Bool :=
  reSearchLS reNoteOne (toLowerL text) && decide (1000 < text.length)

theorem classify_notes_of_LS (tl : List Char) (h : reSearchLS reNoteLine tl = true) :
    classifyPage tl false = Label.notes := by
  simp [classifyPage, h]

/-- C3 (amended): starting outside the footnote state, the sticky flag is set
by a page iff a word-boundary `note 1` match occurs *anywhere* in the lowered
text (not necessarily at a line start) and the raw text exceeds 1000
characters — and it survives the page unless an exit marker also matches.  A
page of at most 1000 characters (e.g. a short table-of-contents entry) never
triggers entry and is classified by the ordinary rules. -/
theorem sticky_entry (p : Page) :
    ((detectDecide false p).1 = (entersNotes p.text && !isNotesExit (toLowerL p.text))) ∧
    (entersNotes p.text =
      (reSearchWB reNoteOne (toLowerL p.text) && decide (1000 < p.text.length))) ∧
    (p.text.length ≤ 1000 → detectDecide false p = (false, classifyPage (toLowerL p.text) false)) := by
  refine ⟨?_, rfl, ?_⟩
  · by_cases he : entersNotes p.text
    · by_cases hex : isNotesExit (toLowerL p.text)
      · simp [detectDecide, he, hex]
      · simp [detectDecide, he, hex]
    · by_cases hls : reSearchLS reNoteLine (toLowerL p.text)
      · simp [detectDecide, he, hls]
      · simp [detectDecide, he, hls]
  · intro hlen
    have he : entersNotes p.text = false := by
      unfold entersNotes
      have : decide (1000 < p.text.length) = false := by simp; omega
      simp [this]
    by_cases hls : reSearchLS reNoteLine (toLowerL p.text)
    · simp [detectDecide, he, hls, classify_notes_of_LS _ hls]
    · simp [detectDecide, he, hls]

def pageC3 : Page :=
  ⟨3, ( "see note 1. summary of accounting matters ".toList) ++ List.replicate 1100 'a'⟩

/-- C3 counterexample: `pageC3`'s text contains `note 1.` only in the middle
of its single line, yet with more than 1000 characters the sticky entry fires,
while the claim's line-start condition is false.  The claimed "if and only if"
therefore fails in the only-if direction. -/
theorem sticky_entry_cx :
    entersNotes pageC3.text = true ∧ entersNotesClaim pageC3.text = false := by
  constructor
  · decide
  · decide

def pageW3 : Page := ⟨2, ( "table of contents note 1 overview".toList)⟩

theorem sticky_entry_witness :
    detectDecide false pageW3 = (false, classifyPage (toLowerL pageW3.text) false) :=
  (sticky_entry pageW3).2.2 (by decide)

/-! ## C4 -/

def sSignatures : List Char := "signatures".toList

def sExhibitIndex : List Char := "exhibit index".toList

def sPartIv : List Char := "part iv".toList

def sPowerOfAttorney : List Char := "power of attorney".toList

/-- Claim wording (C4): one of the exit markers occurs *anywhere* in the page
text ("SIGNATURES" included). -/
def exitMarkersAnywhereClaim (textLower : List Char) : Bool :=
  containsSub sSignatures textLower ||
  reSearch reExhibitIdx textLower ||
  reSearch reExhibitsAndFin textLower ||
  reSearch rePartIv textLower ||
  reSearch rePowerAttorney textLower

theorem detectStep_inNotes (st : DetectState) (p : Page) :
    (detectStep st p).inNotes = (detectDecide st.inNotes p).1 := by
  simp only [detectStep]
  split <;> rfl

/-- C4 (amended): while inside the footnote state, a page exits it exactly
when `_is_notes_exit` matches its lowered text; the exhibit-index, "Part IV"
and power-of-attorney markers anywhere in the text do exit, but the
signatures marker only exits when it is at the end of the page text (followed
by nothing but whitespace) — not anywhere, as claimed.  After an exit the
sticky flag is false, so subsequent pages are classified normally. -/
theorem notes_exit (st : DetectState) (p : Page) (hin : st.inNotes = true) :
    ((detectStep st p).inNotes = !isNotesExit (toLowerL p.text)) ∧
    (containsSub sExhibitIndex (toLowerL p.text) = true → (detectStep st p).inNotes = false) ∧
    (containsSub sPartIv (toLowerL p.text) = true → (detectStep st p).inNotes = false) ∧
    (containsSub sPowerOfAttorney (toLowerL p.text) = true →
      (detectStep st p).inNotes = false) ∧
    (sigEnd (toLowerL p.text) = true → (detectStep st p).inNotes = false) := by
  have hstep : (detectStep st p).inNotes = !isNotesExit (toLowerL p.text) := by
    rw [detectStep_inNotes, hin]
    by_cases hex : isNotesExit (toLowerL p.text)
    · by_cases hls : reSearchLS reNoteLine (toLowerL p.text)
      · simp [detectDecide, hex, hls]
      · simp [detectDecide, hex, hls]
    · simp [detectDecide, hex]
  refine ⟨hstep, ?_, ?_, ?_, ?_⟩
  · intro h
    rw [hstep]
    have : reSearch reExhibitIdx (toLowerL p.text) = true :=
      reSearch_of_containsSub _ h (by decide)
    simp [isNotesExit, this]
  · intro h
    rw [hstep]
    have : reSearch rePartIv (toLowerL p.text) = true :=
      reSearch_of_containsSub _ h (by decide)
    simp [isNotesExit, this]
  · intro h
    rw [hstep]
    have : reSearch rePowerAttorney (toLowerL p.text) = true :=
      reSearch_of_containsSub _ h (by decide)
    simp [isNotesExit, this]
  · intro h
    rw [hstep]
    simp [isNotesExit, h]

def pageC4 : Page := ⟨7, ( "SIGNATURES appear below on page nine".toList)⟩

def stC4 : DetectState := ⟨true, Label.notes, 1, ( "x".toList), []⟩

/-- C4 counterexample: while inside the footnote state, a page containing
"SIGNATURES" in the middle of its text (so the end-anchored
`signatures?\s*$` pattern fails and no other marker matches) does *not* exit
the state, although the claim says any page containing the marker does. -/
theorem notes_exit_cx :
    (detectStep stC4 pageC4).inNotes = true ∧
    containsSub sSignatures (toLowerL pageC4.text) = true ∧
    exitMarkersAnywhereClaim (toLowerL pageC4.text) = true := by
  refine ⟨by decide, by decide, by decide⟩

def pageW4 : Page := ⟨5, ( "exhibit index".toList)⟩

def stW4 : DetectState := ⟨true, Label.notes, 1, ( "x".toList), []⟩

theorem notes_exit_witness :
    (detectStep stW4 pageW4).inNotes = false :=
  (notes_exit stW4 pageW4 rfl).2.1 (by decide)

/-! ## C7 -/

/-- Claim wording (C7): any of the additive (positive-weight) scoring signals
of `_score_chunk`. -/
def hasPositiveSignal (chunkText : List Char) : Bool :=
  reSearch reDollar (toLowerL chunkText) ||
  reSearch reMonthDayYear (toLowerL chunkText) ||
  reSearch reMonthYear (toLowerL chunkText) ||
  reSearch reFiscalYear (toLowerL chunkText) ||
  reSearch reDec31 (toLowerL chunkText) ||
  policyTerms.any (fun t => containsSub t (toLowerL chunkText)) ||
  reSearch reTableNums chunkText

/-- The subtractive (negative-weight) scoring signals of `_score_chunk`. -/
def hasNegativeSignal (chunkText : List Char) : Bool :=
  genericTerms.any (fun t => containsSub t (toLowerL chunkText)) ||
  containsSub sTableOfContents (toLowerL chunkText)

theorem foldl_add_nonneg (tl : List Char) (l : List (List Char)) :
    ∀ acc : Int, acc ≤ l.foldl (fun a t => if containsSub t tl then a + 5 else a) acc := by
  induction l with
  | nil => intro acc; simp
  | cons t ts ih =>
    intro acc
    simp only [List.foldl]
    split
    · exact le_trans (by omega) (ih (acc + 5))
    · exact ih acc

theorem foldl_sub_id_of_none (tl : List Char) (l : List (List Char))
    (h : ∀ t ∈ l, containsSub t tl = false) :
    ∀ acc : Int, l.foldl (fun a t => if containsSub t tl then a - 10 else a) acc = acc := by
  induction l with
  | nil => intro acc; simp
  | cons t ts ih =>
    intro acc
    simp only [List.foldl, h t (by simp)]
    exact ih (fun u hu => h u (by simp [hu])) acc

theorem foldl_add_id_of_none (tl : List Char) (l : List (List Char))
    (h : ∀ t ∈ l, containsSub t tl = false) :
    ∀ acc : Int, l.foldl (fun a t => if containsSub t tl then a + 5 else a) acc = acc := by
  induction l with
  | nil => intro acc; simp
  | cons t ts ih =>
    intro acc
    simp only [List.foldl, h t (by simp)]
    exact ih (fun u hu => h u (by simp [hu])) acc

theorem genericFold_le (tl : List Char)
    (h1 : containsSub (r"forward-looking".toList) tl = true)
    (h2 : containsSub (r"no assurance".toList) tl = true) :
    genericTerms.foldl (fun acc t => if containsSub t tl then acc - 10 else acc) 0 ≤ -20 := by
  simp only [genericTerms, List.foldl, h1, h2, if_true]
  split_ifs <;> omega

theorem scoreChunk_ge_of_signals (a : List Char)
    (h1 : reSearch reDollar (toLowerL a) = true)
    (h2 : reSearch reMonthDayYear (toLowerL a) = true)
    (h4 : reSearch reDec31 (toLowerL a) = true)
    (h7 : ∀ t ∈ genericTerms, containsSub t (toLowerL a) = false)
    (h8 : containsSub sTableOfContents (toLowerL a) = false) :
    60 ≤ scoreChunk a := by
  have h5 := foldl_add_nonneg (toLowerL a) policyTerms 0
  have h7e := foldl_sub_id_of_none (toLowerL a) genericTerms h7 0
  simp only [scoreChunk]
  rw [if_pos h1, if_pos h2, if_pos h4, h7e,
    if_neg (show ¬containsSub sTableOfContents (toLowerL a) = true by simp [h8])]
  split_ifs <;> omega

theorem scoreChunk_le_of_noPositive (b : List Char)
    (hbpos : hasPositiveSignal b = false)
    (hf : containsSub (r"forward-looking".toList) (toLowerL b) = true)
    (hn : containsSub (r"no assurance".toList) (toLowerL b) = true) :
    scoreChunk b ≤ -20 := by
  simp only [hasPositiveSignal, Bool.or_eq_false_iff, List.any_eq_false] at hbpos
  obtain ⟨⟨⟨⟨⟨⟨hd, hmdy⟩, hmy⟩, hfy⟩, hd31⟩, hpol⟩, htab⟩ := hbpos
  have h5e := foldl_add_id_of_none (toLowerL b) policyTerms
    (fun t ht => by simpa using hpol t ht) 0
  have h7le := genericFold_le (toLowerL b) hf hn
  simp only [scoreChunk]
  rw [if_neg (show ¬reSearch reDollar (toLowerL b) = true by simp [hd]),
    if_neg (show ¬reSearch reMonthDayYear (toLowerL b) = true by simp [hmdy]),
    if_neg (show ¬reSearch reMonthYear (toLowerL b) = true by simp [hmy]),
    if_neg (show ¬reSearch reFiscalYear (toLowerL b) = true by simp [hfy]),
    if_neg (show ¬reSearch reDec31 (toLowerL b) = true by simp [hd31]),
    if_neg (show ¬reSearch reTableNums b = true by simp [htab]), h5e]
  split_ifs <;> omega

def dollarLit : List Char := "$4.2 million".toList

def decemberLit : List Char := "December 31, 2023".toList

def fwdLit : List Char := "forward-looking statements".toList

def noAssuranceLit : List Char := "no assurance can be given".toList

/-- C7 (amended): a chunk containing `$4.2 million` and `December 31, 2023`
*and none of the negative signals* scores strictly higher than an equal-length
chunk that contains `forward-looking statements` and `no assurance can be
given` and none of the positive signals.  (Without the added restriction on
the first chunk the claim fails: see the counterexample.) -/
theorem chunk_scoring (a b : List Char)
    (ha1 : containsSub dollarLit a = true)
    (ha2 : containsSub decemberLit a = true)
    (haneg : hasNegativeSignal a = false)
    (hb1 : containsSub fwdLit b = true)
    (hb2 : containsSub noAssuranceLit b = true)
    (hbpos : hasPositiveSignal b = false)
    (_hlen : a.length = b.length) :
    scoreChunk b < scoreChunk a := by
  simp only [hasNegativeSignal, Bool.or_eq_false_iff, List.any_eq_false] at haneg
  obtain ⟨hgen, htoc⟩ := haneg
  -- positive signals of `a`
  have hd : containsSub (toLowerL dollarLit) (toLowerL a) = true := containsSub_map _ ha1
  have hdec : containsSub (toLowerL decemberLit) (toLowerL a) = true := containsSub_map _ ha2
  have h1 : reSearch reDollar (toLowerL a) = true :=
    reSearch_of_containsSub _ hd (by decide)
  have h2 : reSearch reMonthDayYear (toLowerL a) = true :=
    reSearch_of_containsSub _ hdec (by decide)
  have h4 : reSearch reDec31 (toLowerL a) = true :=
    reSearch_of_containsSub _ hdec (by decide)
  have hge := scoreChunk_ge_of_signals a h1 h2 h4 (fun t ht => by simpa using hgen t ht)
    (by simpa using htoc)
  -- negative signals of `b`
  have hfb : containsSub (toLowerL fwdLit) (toLowerL b) = true := containsSub_map _ hb1
  have hnb : containsSub (toLowerL noAssuranceLit) (toLowerL b) = true := containsSub_map _ hb2
  have hf : containsSub (r"forward-looking".toList) (toLowerL b) = true := by
    have := containsSub_take (n := toLowerL fwdLit) 15 hfb
    simpa using this
  have hn : containsSub (r"no assurance".toList) (toLowerL b) = true := by
    have := containsSub_take (n := toLowerL noAssuranceLit) 12 hnb
    simpa using this
  have hle := scoreChunk_le_of_noPositive b hbpos hf hn
  omega

def aC7 : List Char :=
  ( ("$4.2 million December 31, 2023 may pursue could result risks and uncertainties " ++
     "forward-looking no assurance cannot predict subject to change " ++
     "may not be indicative table of contents").toList)

def bC7 : List Char :=
  ( "forward-looking statements no assurance can be given".toList) ++ List.replicate 128 'z'

/-- C7 counterexample: the claim quantifies over *any* chunk containing the
two positive signals, so the first chunk may also carry every negative
signal.  `aC7` (dollar amount and dates plus all eight boilerplate phrases and
"table of contents") scores `-40`, strictly below the equal-length `bC7`
(only the two boilerplate phrases, padded with `z`), which scores `-20` —
contradicting the claimed strict inequality in the other direction. -/
theorem chunk_scoring_cx :
    scoreChunk aC7 < scoreChunk bC7 ∧
    containsSub dollarLit aC7 = true ∧
    containsSub decemberLit aC7 = true ∧
    containsSub fwdLit bC7 = true ∧
    containsSub noAssuranceLit bC7 = true ∧
    hasPositiveSignal bC7 = false ∧
    aC7.length = bC7.length := by
  refine ⟨by decide, by decide, by decide, by decide, by decide, by decide, by decide⟩

def aW7 : List Char := ( "$4.2 million December 31, 2023".toList) ++ List.replicate 22 'z'

def bW7 : List Char := ( "forward-looking statements no assurance can be given".toList)

theorem chunk_scoring_witness : scoreChunk bW7 < scoreChunk aW7 :=
  chunk_scoring aW7 bW7 (by decide) (by decide) (by decide) (by decide) (by decide)
    (by decide) (by decide)

/-! ## C9 -/

/-- C9 (amended): for each configured category, every candidate of the *last*
returned extraction entry bearing that category's name is surfaced, carrying
the boolean verification result — and, in the Gemini variant, the
`UNVERIFIED` flag exactly when verification fails.  Candidates under a
category name that is not configured, or that is superseded by a later entry
with the same name, are dropped (see the counterexample). -/
theorem evidence_surfaced :
    (∀ (blockName sectionText cid cname : List Char)
        (cats : List (List Char × List Char))
        (entries : List (List Char × List RawEvidence))
        (evs : List RawEvidence) (ev : RawEvidence),
        (cid, cname) ∈ cats →
        extractionMapLookup entries cname = some evs →
        ev ∈ evs →
        ∃ ce ∈ extractBlockGemini blockName cats entries sectionText,
          ce.categoryName = cname ∧
          ∃ e ∈ ce.evidence, e.text = ev.text ∧
            e.verified = verifyEvidenceGemini ev.text sectionText ∧
            e.flags = (if verifyEvidenceGemini ev.text sectionText then []
              else [flagUNVERIFIED])) ∧
    (∀ (blockName fullText cn : List Char) (catNames : List (List Char))
        (entries : List (List Char × List RawEvidenceV))
        (evs : List RawEvidenceV) (ev : RawEvidenceV),
        cn ∈ catNames →
        extractionMapLookup entries cn = some evs →
        ev ∈ evs →
        ∃ ce ∈ extractBlockVerbatim blockName catNames entries fullText,
          ce.category = cn ∧
          ∃ e ∈ ce.evidence, e.text = ev.text ∧
            e.verified = verifyEvidence ev.text fullText) := by
  constructor
  · intro blockName sectionText cid cname cats entries evs ev hmem hlook hev
    refine ⟨_, List.mem_map_of_mem _ hmem, rfl, ?_⟩
    simp only [hlook, Option.getD_some]
    exact ⟨_, List.mem_map_of_mem _ hev, rfl, rfl, rfl⟩
  · intro blockName fullText cn catNames entries evs ev hmem hlook hev
    refine ⟨_, List.mem_map_of_mem _ hmem, rfl, ?_⟩
    simp only [hlook, Option.getD_some]
    exact ⟨_, List.mem_map_of_mem _ hev, rfl, rfl⟩

def rawE1 : RawEvidence :=
  ⟨( "first candidate quote about depreciation".toList), 4, ( "Notes".toList),
    ( "HIGH".toList)⟩

def rawE2 : RawEvidence :=
  ⟨( "second candidate quote about amortization".toList), 9, ( "Notes".toList),
    ( "MEDIUM".toList)⟩

def catsC9 : List (List Char × List Char) :=
  [(( "fixed_assets".toList), ( "Depreciation".toList))]

def entriesC9 : List (List Char × List RawEvidence) :=
  [(( "Depreciation".toList), [rawE1]), (( "Depreciation".toList), [rawE2])]

def sectC9 : List Char := "unrelated section text".toList

/-- C9 counterexample: the generative process returns two extraction entries
for the same category name; the dict comprehension keeps only the last, so the
candidate `rawE1` is silently dropped from the output — it is *not* surfaced
with an `UNVERIFIED` flag, contradicting "every EvidenceCandidate returned
... is surfaced in the output evidence list". -/
theorem evidence_surfaced_cx :
    ((extractBlockGemini ( "Fixed Assets".toList) catsC9 entriesC9 sectC9).map
        (fun ce => ce.evidence.map (fun e => e.text))) = [[rawE2.text]] ∧
    rawE1.text ≠ rawE2.text := by
  refine ⟨by decide, by decide⟩

theorem evidence_surfaced_witness :
    ∃ ce ∈ extractBlockGemini ( "Fixed Assets".toList) catsC9 entriesC9 sectC9,
      ce.categoryName = ( "Depreciation".toList) ∧
      ∃ e ∈ ce.evidence, e.text = rawE2.text ∧
        e.verified = verifyEvidenceGemini rawE2.text sectC9 ∧
        e.flags = (if verifyEvidenceGemini rawE2.text sectC9 then []
          else [flagUNVERIFIED]) :=
  evidence_surfaced.1 ( "Fixed Assets".toList) sectC9 ( "fixed_assets".toList)
    ( "Depreciation".toList) catsC9 entriesC9 [rawE2] rawE2 (by decide) (by decide)
    (by decide)

/-! ## C6 -/

/-- `GeminiVerbatimExtractor._extract_relevant_chunks` (lines 183-223):
windows are collected in the *given* keyword order — no length-descending
keyword sort, no word boundaries, no scoring — with the same
window/snap/coarse-key-dedup/page-marker handling as the verbatim variant,
stopping once `max_chunks` chunks have been collected.  (Python notices
`max_chunks` only after appending a chunk; since the returned value is
`chunks[:max_chunks]`, modelling the stop as a guard before the append is
output-equivalent.)  The threaded pair is `(seen_ranges, chunks)`. -/
def collectChunksGemini (text : List Char) (keywords : List (List Char))
    (chunkSize maxChunks : Nat) : List (List Char) :=
  let textLower := toLowerL text
  let res := keywords.foldl
    (fun (st : List (Nat × Nat) × List (List Char)) kw =>
      if st.2.length ≥ maxChunks then st
      else if kw.length < 3 then st
      else
        let kwl := toLowerL kw
        let ms := findKwGo kwl false textLower.length none 0 textLower
        ms.foldl
          (fun (st2 : List (Nat × Nat) × List (List Char)) m =>
            if st2.2.length ≥ maxChunks then st2
            else
              let start0 := m.1 - chunkSize / 2
              let end0 := min text.length (m.2 + chunkSize / 2)
              let start := snapStart text start0
              let stop := snapEnd text text.length end0
              let rangeKey := (start / 1000, stop / 1000)
              if rangeKey ∈ st2.1 then st2
              else
                let windowBefore := (text.drop (start - 200)).take (start - (start - 200))
                let pageMk := (findMarker windowBefore).getD []
                let chunk0 := stripWs ((text.drop start).take (stop - start))
                let chunk :=
                  if !pageMk.isEmpty && !containsSub pageMk chunk0 then
                    pageMk ++ [ '\n' ] ++ chunk0
                  else chunk0
                (rangeKey :: st2.1, st2.2 ++ [chunk]))
          st)
    ([], [])
  res.2

/-- `"\n\n---\n\n".join(chunks[:max_chunks])` of the Gemini variant. -/
def extractRelevantChunksGemini (text : List Char) (keywords : List (List Char))
    (chunkSize maxChunks : Nat) : List Char :=
  sepJoin chunkSep ((collectChunksGemini text keywords chunkSize maxChunks).take maxChunks)

theorem foldl_preserve {α σ : Type} (P : σ → Prop) (g : σ → α → σ)
    (hg : ∀ s x, P s → P (g s x)) :
    ∀ (l : List α) (s : σ), P s → P (l.foldl g s) := by
  intro l
  induction l with
  | nil => intro s h; exact h
  | cons x xs ih => intro s h; exact ih _ (hg s x h)

theorem collectChunksGemini_le (text : List Char) (keywords : List (List Char))
    (chunkSize maxChunks : Nat) :
    (collectChunksGemini text keywords chunkSize maxChunks).length ≤ maxChunks := by
  unfold collectChunksGemini
  refine foldl_preserve
    (fun st : List (Nat × Nat) × List (List Char) => st.2.length ≤ maxChunks) _ ?_
    keywords ([], []) (by simp)
  intro st kw h
  dsimp only
  split_ifs with h1 h2
  · exact h
  · exact h
  · refine foldl_preserve
      (fun st2 : List (Nat × Nat) × List (List Char) => st2.2.length ≤ maxChunks) _ ?_
      _ st h
    intro st2 m h2
    dsimp only
    split_ifs with g1 g2 g3
    · exact h2
    · exact h2
    · simp only [List.length_append, List.length_singleton]
      omega
    · simp only [List.length_append, List.length_singleton]
      omega

/-- C6 (amended): the `VerbatimExtractor` variant returns exactly the
top-ranked `max_results = 15` of its collected deduplicated chunks under the
`(-score, position)` order — the result is sorted, has length
`min 15 #collected`, and the collected chunks split into the result plus a
remainder every element of which ranks no better than any returned chunk
(so in the over-15 regime the dropped chunks are precisely the worse-ranked
ones); the joined excerpt text is that list's chunks joined by the separator.
The cited `GeminiVerbatimExtractor` variant performs no scoring: it returns
at most `max_chunks` deduplicated windows collected in raw keyword-list
order, joined in collection order. -/
theorem chunk_ranking (text : List Char) (keywords : List (List Char)) :
    List.Sorted chunkLE (extractRelevantChunksList text keywords 3000 15) ∧
    (extractRelevantChunksList text keywords 3000 15).length =
      min 15 (collectScoredChunks text keywords 3000).length ∧
    (∃ rest : List Chunk,
      (extractRelevantChunksList text keywords 3000 15 ++ rest).Perm
        (collectScoredChunks text keywords 3000) ∧
      ∀ c ∈ extractRelevantChunksList text keywords 3000 15, ∀ d ∈ rest, chunkLE c d) ∧
    extractRelevantChunks text keywords =
      sepJoin chunkSep
        ((extractRelevantChunksList text keywords 3000 15).map (fun c => c.chunk)) ∧
    (∀ chunkSize maxChunks : Nat,
      extractRelevantChunksGemini text keywords chunkSize maxChunks =
        sepJoin chunkSep
          ((collectChunksGemini text keywords chunkSize maxChunks).take maxChunks) ∧
      (collectChunksGemini text keywords chunkSize maxChunks).length ≤ maxChunks) := by
  refine ⟨?_, ?_, ?_, rfl, fun chunkSize maxChunks =>
    ⟨rfl, collectChunksGemini_le text keywords chunkSize maxChunks⟩⟩
  · exact List.Pairwise.sublist (List.take_sublist _ _)
      (List.sorted_insertionSort chunkLE _)
  · unfold extractRelevantChunksList
    rw [List.length_take, List.length_insertionSort]
  · refine ⟨(List.insertionSort chunkLE (collectScoredChunks text keywords 3000)).drop 15,
      ?_, ?_⟩
    · show (extractRelevantChunksList text keywords 3000 15 ++ _).Perm _
      unfold extractRelevantChunksList
      rw [List.take_append_drop]
      exact List.perm_insertionSort chunkLE _
    · intro c hc d hd
      have hs := List.sorted_insertionSort chunkLE (collectScoredChunks text keywords 3000)
      rw [← List.take_append_drop 15
        (List.insertionSort chunkLE (collectScoredChunks text keywords 3000))] at hs
      exact (List.pairwise_append.1 hs).2.2 c hc d hd

def textC6 : List Char := "the syntax of the form is described on this page".toList

def kwsC6 : List (List Char) := [r"tax".toList]

/-- C6 counterexample: the claim describes the collect-dedup-score-rank
algorithm of the quoted sources, i.e. exactly `extractRelevantChunks`.  The
claim's cited Gemini variant does not implement it: the claimed algorithm
matches short keywords (at most 4 characters) with `\b` word boundaries, so
for keyword `tax` on a page where `tax` occurs only inside `syntax` it
collects nothing and the excerpt is empty — while the Gemini variant, which
matches without word boundaries, finds the embedded occurrence and returns
the whole window.  The two extractors disagree on the same text and keyword
list. -/
theorem chunk_ranking_cx :
    extractRelevantChunksGemini textC6 kwsC6 3000 15 ≠
      extractRelevantChunks textC6 kwsC6 ∧
    collectScoredChunks textC6 kwsC6 3000 = [] ∧
    extractRelevantChunksGemini textC6 kwsC6 3000 15 = textC6 := by
  refine ⟨by decide, by decide, by decide⟩

/-! ## The page-loop invariant of `_detect_sections` (used by C2, C8, C10) -/

theorem classifyPage_ne_business (tl : List Char) (b : Bool) :
    classifyPage tl b ≠ Label.business := by
  unfold classifyPage
  by_cases h1 : (b && reSearch reNoteNumDot tl) = true
  · simp [h1]
  · by_cases h2 : reSearchLS reNoteLine tl = true
    · simp [h1, h2]
    · simp only [h1, h2, Bool.false_eq_true, if_false]
      rcases hf : SECTION_PATTERNS.find? (fun e => e.2.any (fun p => p tl)) with _ | e
      · simp [hf]
      · have hmem : e ∈ SECTION_PATTERNS := List.mem_of_find?_eq_some hf
        simp only [SECTION_PATTERNS, List.mem_cons, List.not_mem_nil, or_false] at hmem
        rcases hmem with rfl | rfl | rfl | rfl | rfl <;> rw [hf] <;> simp

theorem detectDecide_ne_business (b : Bool) (p : Page) :
    (detectDecide b p).2 ≠ Label.business := by
  have hcl := classifyPage_ne_business (toLowerL p.text) b
  cases b <;>
    by_cases he : entersNotes p.text = true <;>
    by_cases hex : isNotesExit (toLowerL p.text) = true <;>
    by_cases hls : reSearchLS reNoteLine (toLowerL p.text) = true <;>
    simp [detectDecide, he, hex, hls] <;>
    simpa using hcl

/-- Facts maintained by the `_detect_sections` page loop after `k` pages have
been consumed: the open section starts within the consumed range (strictly
inside it whenever some text has accumulated), emitted sections are ordered,
gap-free-up-to-the-cursor, non-empty ranges, and no label is ever
`business`. -/
def Inv (k : Nat) (st : DetectState) : Prop :=
  1 ≤ st.currentStart ∧
  st.currentStart ≤ k + 1 ∧
  (hasContent st.sectionText = true → st.currentStart ≤ k) ∧
  st.currentType ≠ Label.business ∧
  (∀ s ∈ st.sections,
    s.startPage ≤ s.endPage ∧ s.endPage < st.currentStart ∧
    s.sectionType ≠ Label.business) ∧
  List.Pairwise (fun s t : Section => s.endPage < t.startPage) st.sections

theorem detectStep_inv (k : Nat) (st : DetectState) (t : List Char) (h : Inv k st) :
    Inv (k + 1) (detectStep st ⟨k + 1, t⟩) := by
  obtain ⟨h1, h2, h3, h4, h5, h6⟩ := h
  have hne := detectDecide_ne_business st.inNotes ⟨k + 1, t⟩
  simp only [detectStep]
  split
  · -- the label changed: the accumulating section is closed (if non-empty)
    by_cases hc : hasContent st.sectionText = true
    · rw [if_pos hc]
      unfold Inv
      dsimp only
      refine ⟨by omega, by omega, fun _ => by omega, hne, ?_, ?_⟩
      · intro s hs
        rcases List.mem_append.1 hs with hs | hs
        · obtain ⟨ha, hb, hcb⟩ := h5 s hs
          exact ⟨ha, by omega, hcb⟩
        · rcases List.mem_singleton.1 hs with rfl
          have := h3 hc
          dsimp only
          refine ⟨by omega, by omega, h4⟩
      · rw [List.pairwise_append]
        refine ⟨h6, by simp, ?_⟩
        intro s hs u hu
        rcases List.mem_singleton.1 hu with rfl
        have := (h5 s hs).2.1
        dsimp only
        omega
    · rw [if_neg hc]
      unfold Inv
      dsimp only
      refine ⟨by omega, by omega, fun _ => by omega, hne, ?_, by simpa using h6⟩
      intro s hs
      rw [List.append_nil] at hs
      obtain ⟨ha, hb, hcb⟩ := h5 s hs
      exact ⟨ha, by omega, hcb⟩
  · -- same label: just accumulate
    unfold Inv
    dsimp only
    refine ⟨h1, by omega, fun _ => by omega, h4, ?_, h6⟩
    intro s hs
    obtain ⟨ha, hb, hcb⟩ := h5 s hs
    exact ⟨ha, by omega, hcb⟩

theorem foldl_inv :
    ∀ (texts : List (List Char)) (k : Nat) (st : DetectState), Inv k st →
      Inv (k + texts.length)
        (((List.enumFrom (k + 1) texts).map (fun e => (⟨e.1, e.2⟩ : Page))).foldl
          detectStep st) := by
  intro texts
  induction texts with
  | nil => intro k st h; simpa using h
  | cons t ts ih =>
    intro k st h
    simp only [List.enumFrom, List.map, List.foldl, List.length_cons]
    have hstep := detectStep_inv k st t h
    have := ih (k + 1) _ hstep
    have harith : k + 1 + ts.length = k + (ts.length + 1) := by omega
    rw [harith] at this
    exact this

theorem detectPass1_props (texts : List (List Char)) :
    (∀ s ∈ detectPass1 texts,
      s.startPage ≤ s.endPage ∧ s.sectionType ≠ Label.business) ∧
    List.Pairwise (fun s t : Section => s.endPage < t.startPage) (detectPass1 texts) := by
  have h0 : Inv 0 initState := by
    refine ⟨by decide, by decide, ?_, by decide, by simp [initState], by simp [initState]⟩
    intro hh
    simp [initState, hasContent] at hh
  have hinv := foldl_inv texts 0 initState h0
  simp only [Nat.zero_add] at hinv
  obtain ⟨h1, h2, h3, h4, h5, h6⟩ := hinv
  simp only [detectPass1, pagesOf]
  by_cases hc : hasContent
      (((List.enumFrom 1 texts).map (fun e => (⟨e.1, e.2⟩ : Page))).foldl
        detectStep initState).sectionText = true
  · rw [if_pos hc]
    constructor
    · intro s hs
      rcases List.mem_append.1 hs with hs | hs
      · obtain ⟨ha, _, hcb⟩ := h5 s hs
        exact ⟨ha, hcb⟩
      · rcases List.mem_singleton.1 hs with rfl
        exact ⟨by simpa using h3 hc, by simpa using h4⟩
    · rw [List.pairwise_append]
      refine ⟨h6, by simp, ?_⟩
      intro s hs u hu
      rcases List.mem_singleton.1 hu with rfl
      have := (h5 s hs).2.1
      have h2' := h3 hc
      dsimp only
      omega
  · rw [if_neg hc]
    rw [List.append_nil]
    exact ⟨fun s hs => ⟨(h5 s hs).1, (h5 s hs).2.2⟩, h6⟩

/-! ## C2 -/

theorem pairwise_kept_merged (l kept : List Section) (merged : Section)
    (hsub : kept.Sublist l)
    (hpw : List.Pairwise (fun s t : Section => s.endPage < t.startPage) l)
    (hm : merged.sectionType = Label.notes) :
    List.Pairwise
      (fun s t : Section => s.sectionType ≠ Label.notes → t.sectionType ≠ Label.notes →
        (s.endPage < t.startPage ∨ t.endPage < s.startPage))
      (kept ++ [merged]) := by
  rw [List.pairwise_append]
  refine ⟨(hpw.sublist hsub).imp (fun hr _ _ => Or.inl hr), by simp, ?_⟩
  intro s _ u hu
  rcases List.mem_singleton.1 hu with rfl
  intro _ hmt
  exact absurd hm hmt

/-- C2 (amended): the final section list is sorted ascending by `start_page`,
and any two distinct sections *neither of which is labelled `notes`* have
non-intersecting page ranges.  The merged notes section itself may overlap a
surviving non-notes section lying inside its span (see the counterexample), so
the claimed unconditional non-overlap fails. -/
theorem section_ranges (texts : List (List Char)) :
    List.Sorted secLE (detectSections texts) ∧
    List.Pairwise
      (fun s t : Section => s.sectionType ≠ Label.notes → t.sectionType ≠ Label.notes →
        (s.endPage < t.startPage ∨ t.endPage < s.startPage))
      (detectSections texts) := by
  obtain ⟨hprops, hpw⟩ := detectPass1_props texts
  unfold detectSections
  rcases hn : notesOf (detectPass1 texts) with _ | ⟨n, ns⟩
  · simp only [mergeNotesSections, hn]
    constructor
    · exact List.Pairwise.imp_of_mem
        (fun ha _ hr => le_of_lt (lt_of_le_of_lt (hprops _ ha).1 hr)) hpw
    · exact hpw.imp (fun hr _ _ => Or.inl hr)
  · simp only [mergeNotesSections, hn]
    constructor
    · exact List.sorted_insertionSort secLE _
    · exact (pairwise_kept_merged (detectPass1 texts) _ _ (List.filter_sublist _) hpw
        rfl).perm (List.perm_insertionSort secLE _).symm
        (fun hr hbn han => (hr han hbn).symm)

def textsC2 : List (List Char) :=
  [( "note 2. x".toList), ( "md&a".toList), ( "note 3. x".toList)]

/-- C2 counterexample: a stream with two fragmented notes pages (1 and 3) and
an MD&A page between them.  The merge pass replaces the notes fragments by one
merged section spanning pages 1-3 but keeps the MD&A section for page 2, so
the final list contains the ranges `[1,3]` and `[2,2]`, which intersect —
refuting the claimed unconditional non-overlap. -/
theorem section_ranges_cx :
    ((detectSections textsC2).map (fun s => (decide (s.sectionType = Label.notes), s.startPage,
        s.endPage))) = [(true, 1, 3), (false, 2, 2)] ∧
    ¬ List.Pairwise
      (fun s t : Section => s.endPage < t.startPage ∨ t.endPage < s.startPage)
      (detectSections textsC2) := by
  constructor
  · decide
  · decide

/-! ## C8 -/

/-- C8: Footnote singleton invariant.  After the merge pass at most one
section is labelled `notes`; and whenever the pre-merge pass produced at least
one notes run, exactly one notes section remains, spanning from the minimum
notes start page to the maximum notes end page as extended by the
embedded-financial-statement absorption rule. -/
theorem footnote_singleton (texts : List (List Char)) :
    (detectSections texts).countP (fun s => decide (s.sectionType = Label.notes)) ≤ 1 ∧
    (∀ n ns, notesOf (detectPass1 texts) = n :: ns →
      (detectSections texts).countP (fun s => decide (s.sectionType = Label.notes)) = 1 ∧
      ∃ s ∈ detectSections texts, s.sectionType = Label.notes ∧
        s.startPage = ns.foldl (fun a v => min a v.startPage) n.startPage ∧
        s.endPage =
          (detectPass1 texts).foldl
            (fun me u =>
              if u.sectionType = Label.financial_statements ∧
                  (ns.foldl (fun a v => min a v.startPage) n.startPage) ≤ u.startPage ∧
                  u.startPage ≤ me + 5 ∧
                  reSearch reNoteNumPunct (toLowerL u.text) = true
              then max me u.endPage else me)
            (ns.foldl (fun a v => max a v.endPage) n.endPage)) := by
  have hone : ∀ n ns, notesOf (detectPass1 texts) = n :: ns →
      (detectSections texts).countP (fun s => decide (s.sectionType = Label.notes)) = 1 := by
    intro n ns hn
    unfold detectSections
    simp only [mergeNotesSections, hn]
    set minS := ns.foldl (fun a s => min a s.startPage) n.startPage with hminS
    set maxE := (detectPass1 texts).foldl
      (fun me s =>
        if s.sectionType = Label.financial_statements ∧
            minS ≤ s.startPage ∧ s.startPage ≤ me + 5 ∧
            reSearch reNoteNumPunct (toLowerL s.text) = true
        then max me s.endPage else me)
      (ns.foldl (fun a s => max a s.endPage) n.endPage) with hmaxE
    rw [(List.perm_insertionSort secLE _).countP_eq, List.countP_append]
    have hkept : ((detectPass1 texts).filter (fun s =>
        !(decide (s.sectionType = Label.notes) ||
          (decide (s.sectionType = Label.financial_statements) &&
           decide (minS ≤ s.startPage) && decide (s.startPage ≤ maxE))))).countP
        (fun s => decide (s.sectionType = Label.notes)) = 0 := by
      rw [List.countP_eq_zero]
      intro s hs
      have hpred := List.of_mem_filter hs
      simp only [Bool.not_eq_true', Bool.or_eq_false_iff] at hpred
      simp [hpred.1]
    rw [hkept]
    simp
  constructor
  · rcases hn : notesOf (detectPass1 texts) with _ | ⟨n, ns⟩
    · unfold detectSections
      simp only [mergeNotesSections, hn]
      have : (detectPass1 texts).countP (fun s => decide (s.sectionType = Label.notes)) =
          ((detectPass1 texts).filter (fun s => decide (s.sectionType = Label.notes))).length :=
        List.countP_eq_length_filter _ _
      rw [this]
      rw [show (detectPass1 texts).filter (fun s => decide (s.sectionType = Label.notes)) =
        notesOf (detectPass1 texts) from rfl, hn]
      simp
    · rw [hone n ns hn]
  · intro n ns hn
    refine ⟨hone n ns hn, ?_⟩
    unfold detectSections
    simp only [mergeNotesSections, hn]
    exact ⟨_, (List.perm_insertionSort secLE _).mem_iff.2
      (List.mem_append.2 (Or.inr (List.mem_singleton.2 rfl))), rfl, rfl, rfl⟩

instance : Inhabited Section := ⟨⟨[], Label.other, 0, 0, []⟩⟩

def textsW8 : List (List Char) := textsC2

theorem footnote_singleton_witness :
    (detectSections textsW8).countP (fun s => decide (s.sectionType = Label.notes)) = 1 :=
  ((footnote_singleton textsW8).2
    (notesOf (detectPass1 textsW8)).head! (notesOf (detectPass1 textsW8)).tail!
    (by decide)).1

/-! ## C10 -/

/-- C10: the page classifier never returns `business` (its codomain is the
five pattern-table labels plus `notes` and `other`), hence no assembled
section is ever labelled `business`, even though `business` appears in the
`BLOCKS` configuration's priority-section list for the Business Overview
block — that entry can never match a section. -/
theorem classifier_codomain :
    (∀ (tl : List Char) (b : Bool), classifyPage tl b ≠ Label.business) ∧
    (∀ texts : List (List Char),
      (detectSections texts).filter (fun s => decide (s.sectionType = Label.business)) = []) ∧
    Label.business ∈ prioritySectionsBusinessOverview := by
  refine ⟨classifyPage_ne_business, ?_, by decide⟩
  intro texts
  rw [List.filter_eq_nil_iff]
  intro s hs
  obtain ⟨hprops, _⟩ := detectPass1_props texts
  unfold detectSections at hs
  rcases hn : notesOf (detectPass1 texts) with _ | ⟨n, ns⟩
  · simp only [mergeNotesSections, hn] at hs
    simpa using (hprops s hs).2
  · simp only [mergeNotesSections, hn] at hs
    have hmem := (List.perm_insertionSort secLE _).mem_iff.1 hs
    rcases List.mem_append.1 hmem with h | h
    · have := List.mem_of_mem_filter h
      simpa using (hprops s this).2
    · rcases List.mem_singleton.1 h with rfl
      simp

end TaxEvidence
